import Mathlib

/-!
Verification of the s3-sync mirroring agent (src/syncer.go, src/builder.go).

The sync engine is embedded shallowly: compare keys are an abstract linearly
ordered type standing for Go strings under strings.Compare (byte-wise
lexicographic, a linear order); modification times are integers (nanoseconds);
sizes are integers.  The destination filesystem is modelled as the sorted list
of file records the walker of destination.files would report, and the S3
listing as the sorted list of object records source.objects would report.
-/

namespace S3Sync

/-- A local file as observed by the destination walker (`type file` in
src/syncer.go).  The Go struct also carries `path`; it equals
`dst ++ compareKey` by construction in `destination.files` and is determined
by `compareKey`, so it is omitted here. -/
structure file (K : Type) where
  compareKey : K
  link : String
  modTime : Int
  size : Int
deriving Repr, DecidableEq

/-- A remote object as observed by the lister (`type object` in
src/syncer.go).  The Go struct also carries the full `key`; it equals
`prefix ++ compareKey` by construction in `source.objects` and is determined
by `compareKey`, so it is omitted here. -/
structure object (K : Type) where
  compareKey : K
  link : String
  modTime : Int
  size : Int
deriving Repr, DecidableEq

variable {K : Type}

/-- The equal-key update condition of `syncer.diff` (src/syncer.go line
144-145): `file.link != object.link || file.link == "" && (file.size !=
object.size || file.modTime.Before(object.modTime))`. -/
def updCond (f : file K) (o : object K) : Bool :=
  (f.link != o.link) ||
    (f.link == "" && ((f.size != o.size) || decide (f.modTime < o.modTime)))

/-- `syncer.diff` (src/syncer.go lines 133-168): merge of the two iterators,
peeking at each head.  The Go `switch strings.Compare` three-way comparison is
rendered as the equal / less / greater chain of the linear order.  The two
trailing drain loops are the base cases. -/
def diff [LinearOrder K] :
    List (file K) → List (object K) → List (object K) × List (file K)
  | [], os => (os, [])
  | f :: fs, [] => ([], f :: fs)
  | f :: fs, o :: os =>
    if f.compareKey = o.compareKey then
      let p := diff fs os
      (if updCond f o then o :: p.1 else p.1, p.2)
    else if f.compareKey < o.compareKey then
      let p := diff fs (o :: os)
      (p.1, f :: p.2)
    else
      let p := diff (f :: fs) os
      (o :: p.1, p.2)
termination_by fs os => fs.length + os.length
decreasing_by all_goals (simp only [List.length_cons]; omega)

/-- First file with the given compare key, if any. -/
def lookupFile [DecidableEq K] (k : K) : List (file K) → Option (file K)
  | [] => none
  | f :: fs => if f.compareKey = k then some f else lookupFile k fs

/-- First object with the given compare key, if any. -/
def lookupObj [DecidableEq K] (k : K) : List (object K) → Option (object K)
  | [] => none
  | o :: os => if o.compareKey = k then some o else lookupObj k os

/-- An object is emitted into `added`: no local file shares its key, or the
matching local file satisfies the update condition. -/
def addPred [DecidableEq K] (fs : List (file K)) (o : object K) : Bool :=
  match lookupFile o.compareKey fs with
  | none => true
  | some f => updCond f o

/-- A file is emitted into `removed`: no remote object shares its key. -/
def removePred [DecidableEq K] (os : List (object K)) (f : file K) : Bool :=
  (lookupObj f.compareKey os).isNone

/-- Files strictly sorted by compare key (the walker reports each path once,
in sorted order). -/
def sortedF [LT K] (fs : List (file K)) : Prop :=
  fs.Pairwise (fun a b => a.compareKey < b.compareKey)

/-- Objects strictly sorted by compare key (S3 lists distinct keys in
lexicographic order). -/
def sortedO [LT K] (os : List (object K)) : Prop :=
  os.Pairwise (fun a b => a.compareKey < b.compareKey)

theorem lookupFile_cons_ne [DecidableEq K] {f : file K} {fs : List (file K)}
    {k : K} (h : f.compareKey ≠ k) : lookupFile k (f :: fs) = lookupFile k fs := by
  simp [lookupFile, h]

theorem lookupObj_cons_ne [DecidableEq K] {o : object K} {os : List (object K)}
    {k : K} (h : o.compareKey ≠ k) : lookupObj k (o :: os) = lookupObj k os := by
  simp [lookupObj, h]

theorem lookupFile_eq_none [DecidableEq K] {fs : List (file K)} {k : K}
    (h : ∀ f ∈ fs, f.compareKey ≠ k) : lookupFile k fs = none := by
  induction fs with
  | nil => rfl
  | cons f fs ih =>
    rw [lookupFile_cons_ne (h f (List.mem_cons_self f fs))]
    exact ih fun g hg => h g (List.mem_cons_of_mem f hg)

theorem lookupObj_eq_none [DecidableEq K] {os : List (object K)} {k : K}
    (h : ∀ o ∈ os, o.compareKey ≠ k) : lookupObj k os = none := by
  induction os with
  | nil => rfl
  | cons o os ih =>
    rw [lookupObj_cons_ne (h o (List.mem_cons_self o os))]
    exact ih fun g hg => h g (List.mem_cons_of_mem o hg)

/-- On strictly sorted inputs, `syncer.diff` computes exactly the filters:
`added` is the objects with no matching file or whose matching file meets the
update condition, in listing order; `removed` is the files with no matching
object, in walk order. -/
theorem diff_eq_filter [LinearOrder K] (fs : List (file K)) (os : List (object K))
    (hf : sortedF fs) (ho : sortedO os) :
    diff fs os = (os.filter (addPred fs), fs.filter (removePred os)) := by
  induction fs, os using diff.induct with
  | case1 os =>
    have h1 : List.filter (addPred ([] : List (file K))) os = os :=
      List.filter_eq_self.2 (by intro o _; simp [addPred, lookupFile])
    simp only [diff, h1, List.filter_nil]
  | case2 f fs =>
    have h1 : List.filter (removePred ([] : List (object K))) (f :: fs) = f :: fs :=
      List.filter_eq_self.2 (by intro g _; simp [removePred, lookupObj])
    simp only [diff, h1, List.filter_nil]
  | case3 f fs o os heq ih =>
    have hf2 : sortedF fs := (List.pairwise_cons.1 hf).2
    have ho2 : sortedO os := (List.pairwise_cons.1 ho).2
    have hfk : ∀ g ∈ fs, f.compareKey < g.compareKey := (List.pairwise_cons.1 hf).1
    have hok : ∀ q ∈ os, o.compareKey < q.compareKey := (List.pairwise_cons.1 ho).1
    have haddo : addPred (f :: fs) o = updCond f o := by
      simp [addPred, lookupFile, heq]
    have hremf : removePred (o :: os) f = false := by
      simp [removePred, lookupObj, heq.symm]
    have hconga : os.filter (addPred (f :: fs)) = os.filter (addPred fs) :=
      List.filter_congr (by
        intro q hq
        have hne2 : f.compareKey ≠ q.compareKey := heq ▸ ne_of_lt (hok q hq)
        simp [addPred, lookupFile_cons_ne hne2])
    have hcongr : fs.filter (removePred (o :: os)) = fs.filter (removePred os) :=
      List.filter_congr (by
        intro g hg
        have hne2 : o.compareKey ≠ g.compareKey := heq ▸ ne_of_lt (hfk g hg)
        simp [removePred, lookupObj_cons_ne hne2])
    simp only [diff]
    rw [if_pos heq, ih hf2 ho2]
    simp only [List.filter_cons, haddo, hremf, hconga, hcongr]
    simp
  | case4 f fs o os hne hlt ih =>
    have hf2 : sortedF fs := (List.pairwise_cons.1 hf).2
    have hfk : ∀ g ∈ fs, f.compareKey < g.compareKey := (List.pairwise_cons.1 hf).1
    have hok : ∀ q ∈ os, o.compareKey < q.compareKey := (List.pairwise_cons.1 ho).1
    have h1 : addPred (f :: fs) o = addPred fs o := by
      simp [addPred, lookupFile_cons_ne hne]
    have h2 : os.filter (addPred (f :: fs)) = os.filter (addPred fs) :=
      List.filter_congr (by
        intro q hq
        have hne2 : f.compareKey ≠ q.compareKey := ne_of_lt (lt_trans hlt (hok q hq))
        simp [addPred, lookupFile_cons_ne hne2])
    have h3 : removePred (o :: os) f = true := by
      have h0 : lookupObj f.compareKey (o :: os) = none := by
        apply lookupObj_eq_none
        intro q hq
        rcases List.mem_cons.1 hq with h | h
        · subst h; exact (ne_of_lt hlt).symm
        · exact (ne_of_lt (lt_trans hlt (hok q h))).symm
      simp [removePred, h0]
    simp only [diff]
    rw [if_neg hne, if_pos hlt, ih hf2 ho]
    simp only [List.filter_cons, h1, h2, h3]
    simp
  | case5 f fs o os hne hnlt ih =>
    have hgt : o.compareKey < f.compareKey :=
      lt_of_le_of_ne (not_lt.1 hnlt) fun h => hne h.symm
    have ho2 : sortedO os := (List.pairwise_cons.1 ho).2
    have hfk : ∀ g ∈ fs, f.compareKey < g.compareKey := (List.pairwise_cons.1 hf).1
    have h1 : removePred (o :: os) f = removePred os f := by
      simp [removePred, lookupObj_cons_ne (ne_of_lt hgt)]
    have h2 : fs.filter (removePred (o :: os)) = fs.filter (removePred os) :=
      List.filter_congr (by
        intro g hg
        have hne2 : o.compareKey ≠ g.compareKey := ne_of_lt (lt_trans hgt (hfk g hg))
        simp [removePred, lookupObj_cons_ne hne2])
    have h3 : addPred (f :: fs) o = true := by
      have h0 : lookupFile o.compareKey (f :: fs) = none := by
        apply lookupFile_eq_none
        intro g hg
        rcases List.mem_cons.1 hg with h | h
        · subst h; exact (ne_of_lt hgt).symm
        · exact (ne_of_lt (lt_trans hgt (hfk g h))).symm
      simp [addPred, h0]
    simp only [diff]
    rw [if_neg hne, if_neg hnlt, ih hf ho2]
    simp only [List.filter_cons, h1, h2, h3]
    simp

/-! ### Applying the diff: updateFiles and removeFiles

`syncer.updateFile` (src/syncer.go lines 180-219) materialises an added object
at `dst/compareKey`, replacing whatever was there: for a link object it creates
a symlink to `object.link`, otherwise it downloads the body; in both cases
`unix.Lutimes` stamps the object's modification time before the final rename.
On the next walk the resulting file record has the object's link and
modification time; its size is the object's listed size for a regular object
(the remote is assumed unchanged during the pass, so the downloaded body has
the listed size) and the byte length of the target for a symlink (`Lstat` on a
link reports the target length).  `syncer.removeFiles` (lines 221-231) unlinks
each removed file. -/

/-- The walker-visible file record left by a successful `syncer.updateFile`. -/
def fileOfObject (o : object K) : file K :=
  { compareKey := o.compareKey
    link := o.link
    modTime := o.modTime
    size := if o.link = "" then o.size else (o.link.utf8ByteSize : Int) }

@[simp] theorem fileOfObject_compareKey (o : object K) :
    (fileOfObject o).compareKey = o.compareKey := rfl

/-- Effect of one `updateFile` on the sorted destination listing: the record
at the object's compare key is created or replaced. -/
def applyAdd [LinearOrder K] : List (file K) → object K → List (file K)
  | [], o => [fileOfObject o]
  | f :: rest, o =>
    if f.compareKey = o.compareKey then fileOfObject o :: rest
    else if o.compareKey < f.compareKey then fileOfObject o :: f :: rest
    else f :: applyAdd rest o

/-- Effect of one `os.Remove` on the sorted destination listing: the record at
the removed file's compare key disappears (the walker path determines the
compare key). -/
def applyRemove [DecidableEq K] : List (file K) → file K → List (file K)
  | [], _ => []
  | f :: rest, r =>
    if f.compareKey = r.compareKey then rest else f :: applyRemove rest r

/-- Destination listing after the success path of `syncer.sync` (src/syncer.go
lines 45-87): `updateFiles` applies every added object in order, then
`removeFiles` unlinks every removed file in order. -/
def syncState [LinearOrder K] (fs : List (file K)) (os : List (object K)) :
    List (file K) :=
  ((diff fs os).2).foldl applyRemove (((diff fs os).1).foldl applyAdd fs)

/-- The `changed` result of `syncer.sync` (line 86):
`len(added) > 0 || len(removed) > 0`. -/
def syncChanged [LinearOrder K] (fs : List (file K)) (os : List (object K)) :
    Bool :=
  decide (0 < (diff fs os).1.length) || decide (0 < (diff fs os).2.length)

theorem mem_applyAdd [LinearOrder K] {fs : List (file K)} {o : object K}
    {g : file K} (h : g ∈ applyAdd fs o) : g = fileOfObject o ∨ g ∈ fs := by
  induction fs with
  | nil =>
    simp [applyAdd] at h
    exact Or.inl h
  | cons f rest ih =>
    by_cases h1 : f.compareKey = o.compareKey
    · simp only [applyAdd, if_pos h1] at h
      rcases List.mem_cons.1 h with h2 | h2
      · exact Or.inl h2
      · exact Or.inr (List.mem_cons_of_mem f h2)
    · by_cases h2 : o.compareKey < f.compareKey
      · simp only [applyAdd, if_neg h1, if_pos h2] at h
        rcases List.mem_cons.1 h with h3 | h3
        · exact Or.inl h3
        · exact Or.inr h3
      · simp only [applyAdd, if_neg h1, if_neg h2] at h
        rcases List.mem_cons.1 h with h3 | h3
        · exact Or.inr (h3 ▸ List.mem_cons_self f rest)
        · rcases ih h3 with h4 | h4
          · exact Or.inl h4
          · exact Or.inr (List.mem_cons_of_mem f h4)

theorem lookupFile_applyAdd [LinearOrder K] (fs : List (file K)) (o : object K)
    (k : K) :
    lookupFile k (applyAdd fs o) =
      if o.compareKey = k then some (fileOfObject o) else lookupFile k fs := by
  induction fs with
  | nil => simp [applyAdd, lookupFile]
  | cons f rest ih =>
    by_cases h1 : f.compareKey = o.compareKey
    · rw [applyAdd, if_pos h1]
      by_cases hk : o.compareKey = k
      · have hfk : (fileOfObject o).compareKey = k := hk
        rw [lookupFile, if_pos hfk, if_pos hk]
      · have hfk : (fileOfObject o).compareKey ≠ k := hk
        have hfk2 : f.compareKey ≠ k := fun h => hk (h1.symm.trans h)
        rw [lookupFile, if_neg hfk, if_neg hk, lookupFile, if_neg hfk2]
    · rw [applyAdd, if_neg h1]
      by_cases h2 : o.compareKey < f.compareKey
      · rw [if_pos h2]
        by_cases hk : o.compareKey = k
        · have hfk : (fileOfObject o).compareKey = k := hk
          rw [lookupFile, if_pos hfk, if_pos hk]
        · have hfk : (fileOfObject o).compareKey ≠ k := hk
          rw [lookupFile, if_neg hfk, if_neg hk]
      · rw [if_neg h2]
        by_cases hfk : f.compareKey = k
        · have hk : ¬ o.compareKey = k := fun h => h1 (hfk.trans h.symm)
          rw [lookupFile, if_pos hfk, if_neg hk, lookupFile, if_pos hfk]
        · rw [lookupFile, if_neg hfk, ih]
          by_cases hk : o.compareKey = k
          · rw [if_pos hk, if_pos hk]
          · rw [if_neg hk, if_neg hk, lookupFile, if_neg hfk]

theorem sortedF_applyAdd [LinearOrder K] {fs : List (file K)} (o : object K)
    (hs : sortedF fs) : sortedF (applyAdd fs o) := by
  induction fs with
  | nil => simp [applyAdd, sortedF]
  | cons f rest ih =>
    have hk : ∀ g ∈ rest, f.compareKey < g.compareKey := (List.pairwise_cons.1 hs).1
    have hs2 : sortedF rest := (List.pairwise_cons.1 hs).2
    by_cases h1 : f.compareKey = o.compareKey
    · simp only [applyAdd, if_pos h1]
      exact List.pairwise_cons.2 ⟨by simpa [h1.symm] using hk, hs2⟩
    · by_cases h2 : o.compareKey < f.compareKey
      · simp only [applyAdd, if_neg h1, if_pos h2]
        refine List.pairwise_cons.2 ⟨?_, hs⟩
        intro g hg
        rcases List.mem_cons.1 hg with h3 | h3
        · simpa [h3] using h2
        · simpa using lt_trans h2 (hk g h3)
      · have h3 : f.compareKey < o.compareKey :=
          lt_of_le_of_ne (not_lt.1 h2) h1
        simp only [applyAdd, if_neg h1, if_neg h2]
        refine List.pairwise_cons.2 ⟨?_, ih hs2⟩
        intro g hg
        rcases mem_applyAdd hg with h4 | h4
        · simpa [h4] using h3
        · exact hk g h4

theorem applyRemove_sublist [DecidableEq K] (fs : List (file K)) (r : file K) :
    (applyRemove fs r).Sublist fs := by
  induction fs with
  | nil => simp [applyRemove]
  | cons f rest ih =>
    by_cases h1 : f.compareKey = r.compareKey
    · simp only [applyRemove, if_pos h1]
      exact List.sublist_cons_of_sublist f (List.Sublist.refl rest)
    · simp only [applyRemove, if_neg h1]
      exact List.Sublist.cons₂ f ih

theorem sortedF_applyRemove [LinearOrder K] {fs : List (file K)} (r : file K)
    (hs : sortedF fs) : sortedF (applyRemove fs r) :=
  List.Pairwise.sublist (applyRemove_sublist fs r) hs

theorem lookupFile_applyRemove [LinearOrder K] {fs : List (file K)}
    (r : file K) (k : K) (hs : sortedF fs) :
    lookupFile k (applyRemove fs r) =
      if r.compareKey = k then none else lookupFile k fs := by
  induction fs with
  | nil => simp [applyRemove, lookupFile]
  | cons f rest ih =>
    have hk : ∀ g ∈ rest, f.compareKey < g.compareKey := (List.pairwise_cons.1 hs).1
    have hs2 : sortedF rest := (List.pairwise_cons.1 hs).2
    by_cases h1 : f.compareKey = r.compareKey
    · rw [applyRemove, if_pos h1]
      by_cases h2 : r.compareKey = k
      · have hnone : lookupFile k rest = none := by
          apply lookupFile_eq_none
          intro g hg
          have : k < g.compareKey := by
            have := hk g hg
            rw [h1, h2] at this
            exact this
          exact ne_of_gt this
        rw [if_pos h2, hnone]
      · have hfk : f.compareKey ≠ k := fun h => h2 (h1.symm.trans h)
        rw [if_neg h2, lookupFile, if_neg hfk]
    · rw [applyRemove, if_neg h1]
      by_cases hfk : f.compareKey = k
      · have h2 : ¬ r.compareKey = k := fun h => h1 (hfk.trans h.symm)
        rw [lookupFile, if_pos hfk, if_neg h2, lookupFile, if_pos hfk]
      · rw [lookupFile, if_neg hfk, ih hs2]
        by_cases h2 : r.compareKey = k
        · rw [if_pos h2, if_pos h2]
        · rw [if_neg h2, if_neg h2, lookupFile, if_neg hfk]

theorem lookupFile_eq_some [DecidableEq K] {fs : List (file K)} {k : K}
    {f : file K} (h : lookupFile k fs = some f) : f ∈ fs ∧ f.compareKey = k := by
  induction fs with
  | nil => simp [lookupFile] at h
  | cons g rest ih =>
    by_cases h1 : g.compareKey = k
    · rw [lookupFile, if_pos h1] at h
      obtain rfl : g = f := Option.some.inj h
      exact ⟨List.mem_cons_self _ rest, h1⟩
    · rw [lookupFile, if_neg h1] at h
      exact ⟨List.mem_cons_of_mem g (ih h).1, (ih h).2⟩

theorem lookupObj_eq_some [DecidableEq K] {os : List (object K)} {k : K}
    {o : object K} (h : lookupObj k os = some o) : o ∈ os ∧ o.compareKey = k := by
  induction os with
  | nil => simp [lookupObj] at h
  | cons q rest ih =>
    by_cases h1 : q.compareKey = k
    · rw [lookupObj, if_pos h1] at h
      obtain rfl : q = o := Option.some.inj h
      exact ⟨List.mem_cons_self _ rest, h1⟩
    · rw [lookupObj, if_neg h1] at h
      exact ⟨List.mem_cons_of_mem q (ih h).1, (ih h).2⟩

theorem lookupFile_of_mem_sorted [LinearOrder K] {fs : List (file K)}
    {f : file K} (hs : sortedF fs) (h : f ∈ fs) :
    lookupFile f.compareKey fs = some f := by
  induction fs with
  | nil => simp at h
  | cons g rest ih =>
    rcases List.mem_cons.1 h with h1 | h1
    · subst h1
      rw [lookupFile, if_pos rfl]
    · have hlt : g.compareKey < f.compareKey := (List.pairwise_cons.1 hs).1 f h1
      rw [lookupFile, if_neg (ne_of_lt hlt), ih (List.pairwise_cons.1 hs).2 h1]

theorem lookupObj_of_mem_sorted [LinearOrder K] {os : List (object K)}
    {o : object K} (hs : sortedO os) (h : o ∈ os) :
    lookupObj o.compareKey os = some o := by
  induction os with
  | nil => simp at h
  | cons q rest ih =>
    rcases List.mem_cons.1 h with h1 | h1
    · subst h1
      rw [lookupObj, if_pos rfl]
    · have hlt : q.compareKey < o.compareKey := (List.pairwise_cons.1 hs).1 o h1
      rw [lookupObj, if_neg (ne_of_lt hlt), ih (List.pairwise_cons.1 hs).2 h1]

theorem forall_ne_of_lookupObj_eq_none [DecidableEq K] {os : List (object K)}
    {k : K} (h : lookupObj k os = none) : ∀ o ∈ os, o.compareKey ≠ k := by
  induction os with
  | nil => simp
  | cons q rest ih =>
    by_cases h1 : q.compareKey = k
    · rw [lookupObj, if_pos h1] at h
      cases h
    · rw [lookupObj, if_neg h1] at h
      intro o ho
      rcases List.mem_cons.1 ho with h2 | h2
      · exact h2 ▸ h1
      · exact ih h o h2

/-- Strictly sorted object lists have pairwise distinct keys. -/
theorem sortedO_key_ne [LinearOrder K] {os : List (object K)} (hs : sortedO os) :
    os.Pairwise (fun a b => a.compareKey ≠ b.compareKey) :=
  hs.imp fun h => ne_of_lt h

theorem key_inj_os [LinearOrder K] {os : List (object K)} (hs : sortedO os)
    {a b : object K} (ha : a ∈ os) (hb : b ∈ os)
    (hk : a.compareKey = b.compareKey) : a = b := by
  induction os with
  | nil => simp at ha
  | cons q rest ih =>
    have hq : ∀ g ∈ rest, q.compareKey < g.compareKey := (List.pairwise_cons.1 hs).1
    rcases List.mem_cons.1 ha with h1 | h1 <;> rcases List.mem_cons.1 hb with h2 | h2
    · exact h1.trans h2.symm
    · exact absurd (h1 ▸ hk) (ne_of_lt (hq b h2))
    · exact absurd (h2 ▸ hk.symm) (ne_of_lt (hq a h1))
    · exact ih (List.pairwise_cons.1 hs).2 h1 h2

theorem find?_key_of_mem [DecidableEq K] {os : List (object K)}
    (hnd : os.Pairwise (fun a b => a.compareKey ≠ b.compareKey)) {o : object K}
    (ho : o ∈ os) :
    os.find? (fun a => decide (a.compareKey = o.compareKey)) = some o := by
  induction os with
  | nil => simp at ho
  | cons q rest ih =>
    have hq : ∀ g ∈ rest, q.compareKey ≠ g.compareKey := (List.pairwise_cons.1 hnd).1
    rcases List.mem_cons.1 ho with h1 | h1
    · subst h1
      rw [List.find?_cons_of_pos _ (by simp)]
    · have hne : q.compareKey ≠ o.compareKey := hq o h1
      rw [List.find?_cons_of_neg _ (by simpa using hne)]
      exact ih (List.pairwise_cons.1 hnd).2 h1

theorem sortedF_foldl_applyAdd [LinearOrder K] (as : List (object K))
    {fs : List (file K)} (hs : sortedF fs) : sortedF (as.foldl applyAdd fs) := by
  induction as generalizing fs with
  | nil => exact hs
  | cons a as ih => exact ih (sortedF_applyAdd a hs)

theorem sortedF_foldl_applyRemove [LinearOrder K] (rs : List (file K))
    {fs : List (file K)} (hs : sortedF fs) : sortedF (rs.foldl applyRemove fs) := by
  induction rs generalizing fs with
  | nil => exact hs
  | cons r rs ih => exact ih (sortedF_applyRemove r hs)

theorem lookupFile_foldl_applyAdd [LinearOrder K] (as : List (object K))
    (fs : List (file K)) (k : K)
    (hnd : as.Pairwise (fun a b => a.compareKey ≠ b.compareKey)) :
    lookupFile k (as.foldl applyAdd fs) =
      match as.find? (fun a => decide (a.compareKey = k)) with
      | some a => some (fileOfObject a)
      | none => lookupFile k fs := by
  induction as generalizing fs with
  | nil => simp [List.find?]
  | cons a as ih =>
    rw [List.foldl_cons, ih _ (List.pairwise_cons.1 hnd).2]
    by_cases hk : a.compareKey = k
    · have htail : as.find? (fun b => decide (b.compareKey = k)) = none := by
        rw [List.find?_eq_none]
        intro b hb
        have : a.compareKey ≠ b.compareKey := (List.pairwise_cons.1 hnd).1 b hb
        simp [hk ▸ this.symm]
      rw [htail, List.find?_cons_of_pos _ (by simp [hk]), lookupFile_applyAdd,
        if_pos hk]
    · rw [List.find?_cons_of_neg _ (by simp [hk])]
      cases hfind : as.find? (fun b => decide (b.compareKey = k)) with
      | some b => rfl
      | none => rw [lookupFile_applyAdd, if_neg hk]

theorem lookupFile_foldl_applyRemove [LinearOrder K] (rs : List (file K))
    (fs : List (file K)) (k : K) (hs : sortedF fs) :
    lookupFile k (rs.foldl applyRemove fs) =
      if rs.any (fun r => decide (r.compareKey = k)) then none
      else lookupFile k fs := by
  induction rs generalizing fs with
  | nil => simp
  | cons r rs ih =>
    rw [List.foldl_cons, ih _ (sortedF_applyRemove r hs),
      lookupFile_applyRemove r k hs]
    by_cases h1 : r.compareKey = k
    · simp [h1]
    · simp [h1]

theorem sortedF_syncState [LinearOrder K] (fs : List (file K))
    (os : List (object K)) (hf : sortedF fs) : sortedF (syncState fs os) :=
  sortedF_foldl_applyRemove _ (sortedF_foldl_applyAdd _ hf)

/-- A freshly materialised object never satisfies the update condition
against itself on the next pass. -/
theorem updCond_fileOfObject (o : object K) :
    updCond (fileOfObject o) o = false := by
  by_cases h : o.link = ""
  · simp [updCond, fileOfObject, h]
  · simp [updCond, fileOfObject, h]

theorem updCond_eq_false_iff (f : file K) (o : object K) :
    updCond f o = false ↔
      f.link = o.link ∧ (f.link = "" → f.size = o.size ∧ ¬ f.modTime < o.modTime) := by
  by_cases h : f.link = o.link
  · rw [h]
    simp [updCond, h]
  · simp [updCond, h]

/-- The record visible at any key after the success path of `syncer.sync`:
keys matching a listed object hold either the freshly applied object or the
kept original file; all other keys hold nothing. -/
theorem lookupFile_syncState [LinearOrder K] (fs : List (file K))
    (os : List (object K)) (hf : sortedF fs) (ho : sortedO os) (k : K) :
    lookupFile k (syncState fs os) =
      match lookupObj k os with
      | some o => if addPred fs o then some (fileOfObject o) else lookupFile k fs
      | none => none := by
  have hdiff := diff_eq_filter fs os hf ho
  have hsortedA : sortedF ((os.filter (addPred fs)).foldl applyAdd fs) :=
    sortedF_foldl_applyAdd _ hf
  have hndA : (os.filter (addPred fs)).Pairwise
      (fun a b => a.compareKey ≠ b.compareKey) :=
    (sortedO_key_ne ho).filter _
  simp only [syncState, hdiff]
  rw [lookupFile_foldl_applyRemove _ _ _ hsortedA,
    lookupFile_foldl_applyAdd _ _ _ hndA]
  cases hlook : lookupObj k os with
  | some o =>
    obtain ⟨hmem, hkey⟩ := lookupObj_eq_some hlook
    have hany : (fs.filter (removePred os)).any
        (fun r => decide (r.compareKey = k)) = false := by
      rw [List.any_eq_false]
      intro r hr
      obtain ⟨hrf, hrp⟩ := List.mem_filter.1 hr
      intro hbad
      have hrk : r.compareKey = k := of_decide_eq_true hbad
      have : lookupObj r.compareKey os = none := by
        rcases hnone : lookupObj r.compareKey os with _ | q
        · rfl
        · rw [removePred, hnone] at hrp
          cases hrp
      rw [hrk, hlook] at this
      cases this
    rw [hany]
    simp only [Bool.false_eq_true, if_false]
    by_cases hadd : addPred fs o = true
    · have ho2 : o ∈ os.filter (addPred fs) := List.mem_filter.2 ⟨hmem, hadd⟩
      have hfind : (os.filter (addPred fs)).find?
          (fun a => decide (a.compareKey = k)) = some o := by
        have := find?_key_of_mem hndA ho2
        rwa [hkey] at this
      rw [hfind, if_pos hadd]
    · have hfind : (os.filter (addPred fs)).find?
          (fun a => decide (a.compareKey = k)) = none := by
        rw [List.find?_eq_none]
        intro a ha hpa
        obtain ⟨haos, hap⟩ := List.mem_filter.1 ha
        have hak : a.compareKey = k := of_decide_eq_true hpa
        have hao : a = o := key_inj_os ho haos hmem (hak.trans hkey.symm)
        rw [hao] at hap
        exact hadd hap
      rw [hfind, if_neg hadd]
  | none =>
    have hforall := forall_ne_of_lookupObj_eq_none hlook
    have hfind : (os.filter (addPred fs)).find?
        (fun a => decide (a.compareKey = k)) = none := by
      rw [List.find?_eq_none]
      intro a ha hpa
      exact hforall a (List.mem_filter.1 ha).1 (of_decide_eq_true hpa)
    rw [hfind]
    by_cases hany : (fs.filter (removePred os)).any
        (fun r => decide (r.compareKey = k)) = true
    · rw [if_pos hany]
    · rw [if_neg hany]
      rcases hlf : lookupFile k fs with _ | f
      · rfl
      · obtain ⟨hff, hfk⟩ := lookupFile_eq_some hlf
        have hrp : removePred os f = true := by
          have hn : lookupObj f.compareKey os = none := by
            rw [hfk]; exact hlook
          simp [removePred, hn]
        have : (fs.filter (removePred os)).any
            (fun r => decide (r.compareKey = k)) = true := by
          rw [List.any_eq_true]
          exact ⟨f, List.mem_filter.2 ⟨hff, hrp⟩, by simp [hfk]⟩
        exact absurd this hany

/-- Every file surviving a sync pass has the key of some listed object. -/
theorem mem_syncState_key [LinearOrder K] {fs : List (file K)}
    {os : List (object K)} (hf : sortedF fs) (ho : sortedO os) {g : file K}
    (hg : g ∈ syncState fs os) : ∃ o ∈ os, o.compareKey = g.compareKey := by
  have hsome : lookupFile g.compareKey (syncState fs os) = some g :=
    lookupFile_of_mem_sorted (sortedF_syncState fs os hf) hg
  rw [lookupFile_syncState fs os hf ho] at hsome
  rcases hlook : lookupObj g.compareKey os with _ | o
  · rw [hlook] at hsome
    cases hsome
  · exact ⟨o, (lookupObj_eq_some hlook).1, (lookupObj_eq_some hlook).2⟩

/-- A second diff against an unchanged listing is empty on both sides. -/
theorem diff_syncState_eq_nil [LinearOrder K] (fs : List (file K))
    (os : List (object K)) (hf : sortedF fs) (ho : sortedO os) :
    diff (syncState fs os) os = ([], []) := by
  rw [diff_eq_filter _ _ (sortedF_syncState fs os hf) ho, Prod.mk.injEq]
  constructor
  · rw [List.filter_eq_nil_iff]
    intro o ho2
    have hlookS := lookupFile_syncState fs os hf ho o.compareKey
    simp only [lookupObj_of_mem_sorted ho ho2] at hlookS
    by_cases hadd : addPred fs o = true
    · rw [if_pos hadd] at hlookS
      simp [addPred, hlookS, updCond_fileOfObject]
    · rw [if_neg hadd] at hlookS
      rcases hlf : lookupFile o.compareKey fs with _ | f
      · exact absurd (by simp [addPred, hlf]) hadd
      · rw [hlf] at hlookS
        have hupd : updCond f o = false := by
          rcases hufo : updCond f o with _ | _
          · rfl
          · exact absurd (by simp [addPred, hlf, hufo]) hadd
        simp [addPred, hlookS, hupd]
  · rw [List.filter_eq_nil_iff]
    intro g hg
    obtain ⟨o, ho2, hk⟩ := mem_syncState_key hf ho hg
    have hne : lookupObj g.compareKey os ≠ none := by
      intro hn
      exact forall_ne_of_lookupObj_eq_none hn o ho2 hk
    rcases hlook : lookupObj g.compareKey os with _ | q
    · exact absurd hlook hne
    · simp [removePred, hlook]

/-- A second pass over an unchanged listing reports no change. -/
theorem syncChanged_syncState [LinearOrder K] (fs : List (file K))
    (os : List (object K)) (hf : sortedF fs) (ho : sortedO os) :
    syncChanged (syncState fs os) os = false := by
  simp only [syncChanged, diff_syncState_eq_nil fs os hf ho]
  simp

/-! ### Claim C2, and the behaviour of a pass on sorted walker outputs -/

/-- C2: on input streams sorted by compareKey, `syncer.diff` emits, at equal
keys, the remote object into `added` exactly when the link fields differ or
both entries are regular (empty link) and the sizes differ or the local
modification time is strictly before the remote one; a local entry with the
smaller key goes to `removed`, a remote entry with the smaller key goes to
`added`, and once either stream is exhausted the remaining local entries drain
to `removed` and the remaining remote entries drain to `added`.  (Stated
extensionally: the outputs are exactly the filters by `addPred` and
`removePred`, and the update condition is the claimed disjunction.) -/
theorem diff_merge_rules [LinearOrder K] (fs : List (file K))
    (os : List (object K)) (hf : sortedF fs) (ho : sortedO os) :
    diff fs os = (os.filter (addPred fs), fs.filter (removePred os)) ∧
    ∀ (f : file K) (o : object K), updCond f o = true ↔
      f.link ≠ o.link ∨
        (f.link = "" ∧ o.link = "" ∧ (f.size ≠ o.size ∨ f.modTime < o.modTime)) := by
  refine ⟨diff_eq_filter fs os hf ho, ?_⟩
  intro f o
  by_cases h : f.link = o.link
  · simp [updCond, h]
  · simp [updCond, h]

/-- Witness for C2 at a concrete input: an older same-size local file against
a newer remote object. -/
theorem diff_merge_rules_witness :
    sortedF [({ compareKey := 1, link := "", modTime := 5, size := 2 } : file Nat)] ∧
    sortedO [({ compareKey := 1, link := "", modTime := 9, size := 2 } : object Nat)] ∧
    diff [({ compareKey := 1, link := "", modTime := 5, size := 2 } : file Nat)]
        [({ compareKey := 1, link := "", modTime := 9, size := 2 } : object Nat)] =
      ([({ compareKey := 1, link := "", modTime := 9, size := 2 } : object Nat)].filter
          (addPred [({ compareKey := 1, link := "", modTime := 5, size := 2 } : file Nat)]),
        [({ compareKey := 1, link := "", modTime := 5, size := 2 } : file Nat)].filter
          (removePred [({ compareKey := 1, link := "", modTime := 9, size := 2 } : object Nat)])) :=
  ⟨by simp [sortedF], by simp [sortedO],
    (diff_merge_rules _ _ (by simp [sortedF]) (by simp [sortedO])).1⟩

/-- Conditional idempotence: when the walker output is byte-wise sorted, a
second pass against an unchanged remote finds nothing to do — both diff lists
of the second pass are empty and `changed` is false.  The program's walker
does not always deliver sorted output (see the walk-order results below), so
this describes the program only on destinations whose walk order happens to
agree with the listing order. -/
theorem sync_idempotent [LinearOrder K] (fs : List (file K))
    (os : List (object K)) (hf : sortedF fs) (ho : sortedO os) :
    syncChanged (syncState fs os) os = false ∧
    diff (syncState fs os) os = ([], []) :=
  ⟨syncChanged_syncState fs os hf ho, diff_syncState_eq_nil fs os hf ho⟩

/-- The conditional idempotence at a concrete input: an empty destination and
a one-object listing. -/
theorem sync_idempotent_witness :
    sortedF ([] : List (file Nat)) ∧
    sortedO [({ compareKey := 0, link := "", modTime := 3, size := 1 } : object Nat)] ∧
    (syncChanged
        (syncState ([] : List (file Nat))
          [({ compareKey := 0, link := "", modTime := 3, size := 1 } : object Nat)])
        [({ compareKey := 0, link := "", modTime := 3, size := 1 } : object Nat)] = false ∧
      diff
        (syncState ([] : List (file Nat))
          [({ compareKey := 0, link := "", modTime := 3, size := 1 } : object Nat)])
        [({ compareKey := 0, link := "", modTime := 3, size := 1 } : object Nat)] = ([], [])) :=
  ⟨by simp [sortedF], by simp [sortedO],
    sync_idempotent _ _ (by simp [sortedF]) (by simp [sortedO])⟩

/-- Even on sorted walker outputs, "identical modification time" fails: a
local regular file with the same key and size as the remote object but a
strictly newer modification time is kept unchanged by `syncer.sync` (the diff
emits nothing, `file.modTime.Before(object.modTime)` being strict), so after
a successful pass the local modification time (1) differs from the remote
modification time (0). -/
theorem mirror_identical_modtime_counterexample :
    sortedF [({ compareKey := 0, link := "", modTime := 1, size := 1 } : file Nat)] ∧
    sortedO [({ compareKey := 0, link := "", modTime := 0, size := 1 } : object Nat)] ∧
    lookupFile 0
        (syncState [({ compareKey := 0, link := "", modTime := 1, size := 1 } : file Nat)]
          [({ compareKey := 0, link := "", modTime := 0, size := 1 } : object Nat)]) =
      some { compareKey := 0, link := "", modTime := 1, size := 1 } ∧
    ({ compareKey := 0, link := "", modTime := 1, size := 1 } : file Nat).modTime ≠
      ({ compareKey := 0, link := "", modTime := 0, size := 1 } : object Nat).modTime := by
  refine ⟨by simp [sortedF], by simp [sortedO], ?_, by decide⟩
  simp [syncState, diff, updCond, addPred, removePred, lookupFile, lookupObj,
    applyAdd, applyRemove, fileOfObject]

/-- Conditional mirror description: when the walker output is byte-wise
sorted, after a successful `syncer.sync` with the listing unchanged during
the pass, every listed object has a local record at its compare key with the
same link field; if the object is regular, the local size equals the object
size and the local modification time is not earlier than the object's; and
every local file corresponds to a listed object.  Kept symlinks may differ
from the link object in size and modification time.  On walker outputs the
program actually produces this can fail outright (see the walk-order results
below). -/
theorem mirror_property_amended [LinearOrder K] (fs : List (file K))
    (os : List (object K)) (hf : sortedF fs) (ho : sortedO os) :
    (∀ o ∈ os, ∃ e : file K,
        lookupFile o.compareKey (syncState fs os) = some e ∧
        e.link = o.link ∧
        (o.link = "" → e.size = o.size ∧ ¬ e.modTime < o.modTime)) ∧
    ∀ g ∈ syncState fs os, ∃ o ∈ os, o.compareKey = g.compareKey := by
  constructor
  · intro o ho2
    have hlookS := lookupFile_syncState fs os hf ho o.compareKey
    simp only [lookupObj_of_mem_sorted ho ho2] at hlookS
    by_cases hadd : addPred fs o = true
    · rw [if_pos hadd] at hlookS
      refine ⟨fileOfObject o, hlookS, rfl, ?_⟩
      intro hlink
      exact ⟨by simp [fileOfObject, hlink], by simp [fileOfObject]⟩
    · rw [if_neg hadd] at hlookS
      rcases hlf : lookupFile o.compareKey fs with _ | f
      · exact absurd (by simp [addPred, hlf]) hadd
      · rw [hlf] at hlookS
        have hupd : updCond f o = false := by
          rcases hufo : updCond f o with _ | _
          · rfl
          · exact absurd (by simp [addPred, hlf, hufo]) hadd
        obtain ⟨hl, himp⟩ := (updCond_eq_false_iff f o).1 hupd
        exact ⟨f, hlookS, hl, fun hlink => himp (hl.trans hlink)⟩
  · intro g hg
    exact mem_syncState_key hf ho hg

/-- The conditional mirror description at a concrete input: empty
destination, one regular object. -/
theorem mirror_property_amended_witness :
    sortedF ([] : List (file Nat)) ∧
    sortedO [({ compareKey := 4, link := "", modTime := 2, size := 7 } : object Nat)] ∧
    ((∀ o ∈ [({ compareKey := 4, link := "", modTime := 2, size := 7 } : object Nat)],
        ∃ e : file Nat,
          lookupFile o.compareKey
              (syncState ([] : List (file Nat))
                [({ compareKey := 4, link := "", modTime := 2, size := 7 } : object Nat)]) =
            some e ∧
          e.link = o.link ∧
          (o.link = "" → e.size = o.size ∧ ¬ e.modTime < o.modTime)) ∧
      ∀ g ∈ syncState ([] : List (file Nat))
          [({ compareKey := 4, link := "", modTime := 2, size := 7 } : object Nat)],
        ∃ o ∈ [({ compareKey := 4, link := "", modTime := 2, size := 7 } : object Nat)],
          o.compareKey = g.compareKey) :=
  ⟨by simp [sortedF], by simp [sortedO],
    mirror_property_amended _ _ (by simp [sortedF]) (by simp [sortedO])⟩

/-! ### syncer.sync with failure injection

The error flow of `syncer.sync` (src/syncer.go lines 45-87): the outcome of
each externally effectful operation is injected as a parameter.  `E` is the
abstract type of Go error values; the operations return their Go results
unchanged.  The walker result, when it succeeds, is the current destination
listing `st0`.  A failing `updateFile` leaves the destination entry untouched
(established independently for claim C4), so only the successful prefix of
`added` is applied. -/

/-- Injected outcomes for one run of `syncer.sync`. -/
structure syncEnv (K : Type) (E : Type) where
  resolveRes : Except E Unit
  walkRes : Except E Unit
  listRes : Except E (List (object K))
  updateRes : object K → Option E
  removeRes : file K → Option E

/-- `syncer.updateFiles` (lines 170-178): apply each added object in order,
stopping at the first error. -/
def updateFilesE [LinearOrder K] (env : syncEnv K E) :
    List (file K) → List (object K) → List (file K) × Option E
  | st, [] => (st, none)
  | st, o :: rest =>
    match env.updateRes o with
    | some e => (st, some e)
    | none => updateFilesE env (applyAdd st o) rest

/-- `syncer.removeFiles` (lines 221-231): unlink each removed file in order,
stopping at the first error. -/
def removeFilesE [DecidableEq K] (env : syncEnv K E) :
    List (file K) → List (file K) → List (file K) × Option E
  | st, [] => (st, none)
  | st, r :: rest =>
    match env.removeRes r with
    | some e => (st, some e)
    | none => removeFilesE env (applyRemove st r) rest

/-- `syncer.sync` (lines 45-87) with its error flow: resolve the prefix links,
walk the destination, list the bucket, diff, update, remove.  Returns
`(changed, err, destination listing after the pass)`; every error return in
the Go source is `return false, err`. -/
def syncRun [LinearOrder K] (env : syncEnv K E) (st0 : List (file K)) :
    Bool × Option E × List (file K) :=
  match env.resolveRes with
  | .error e => (false, some e, st0)
  | .ok _ =>
    match env.walkRes with
    | .error e => (false, some e, st0)
    | .ok _ =>
      match env.listRes with
      | .error e => (false, some e, st0)
      | .ok os =>
        match updateFilesE env st0 (diff st0 os).1 with
        | (st1, some e) => (false, some e, st1)
        | (st1, none) =>
          match removeFilesE env st1 (diff st0 os).2 with
          | (st2, some e) => (false, some e, st2)
          | (st2, none) =>
            (decide (0 < (diff st0 os).1.length) ||
              decide (0 < (diff st0 os).2.length), none, st2)

theorem updateFilesE_error [LinearOrder K] (env : syncEnv K E) :
    ∀ (as : List (object K)) (st : List (file K)) (e : E),
      (updateFilesE env st as).2 = some e → ∃ o ∈ as, env.updateRes o = some e := by
  intro as
  induction as with
  | nil => intro st e h; cases h
  | cons o rest ih =>
    intro st e h
    rcases hr : env.updateRes o with _ | e2
    · rw [updateFilesE, hr] at h
      obtain ⟨o2, ho2, he2⟩ := ih _ e h
      exact ⟨o2, List.mem_cons_of_mem o ho2, he2⟩
    · rw [updateFilesE, hr] at h
      obtain rfl : e2 = e := Option.some.inj h
      exact ⟨o, List.mem_cons_self o rest, hr⟩

theorem removeFilesE_error [DecidableEq K] (env : syncEnv K E) :
    ∀ (rs : List (file K)) (st : List (file K)) (e : E),
      (removeFilesE env st rs).2 = some e → ∃ f ∈ rs, env.removeRes f = some e := by
  intro rs
  induction rs with
  | nil => intro st e h; cases h
  | cons r rest ih =>
    intro st e h
    rcases hr : env.removeRes r with _ | e2
    · rw [removeFilesE, hr] at h
      obtain ⟨f2, hf2, he2⟩ := ih _ e h
      exact ⟨f2, List.mem_cons_of_mem r hf2, he2⟩
    · rw [removeFilesE, hr] at h
      obtain rfl : e2 = e := Option.some.inj h
      exact ⟨r, List.mem_cons_self r rest, hr⟩

/-! ### Claims C9 and C10 -/

/-- Case analysis on one run of `syncRun`: either it succeeds, or it returns
an error that is the injected outcome of link resolution, walking, listing,
updating or removing, with `changed = false`. -/
theorem syncRun_error_shape [LinearOrder K] (env : syncEnv K E)
    (st0 : List (file K)) :
    (syncRun env st0).2.1 = none ∨
      (syncRun env st0).1 = false ∧ ∃ e, (syncRun env st0).2.1 = some e ∧
        (env.resolveRes = .error e ∨ env.walkRes = .error e ∨
          env.listRes = .error e ∨
          (∃ o, env.updateRes o = some e) ∨ (∃ f, env.removeRes f = some e)) := by
  rcases hres : env.resolveRes with e1 | u1
  · refine Or.inr ⟨?_, e1, ?_, Or.inl rfl⟩ <;> simp only [syncRun, hres]
  · rcases hwalk : env.walkRes with e2 | u2
    · refine Or.inr ⟨?_, e2, ?_, Or.inr (Or.inl rfl)⟩ <;>
        simp only [syncRun, hres, hwalk]
    · rcases hlist : env.listRes with e3 | os
      · refine Or.inr ⟨?_, e3, ?_, Or.inr (Or.inr (Or.inl rfl))⟩ <;>
          simp only [syncRun, hres, hwalk, hlist]
      · rcases hu : updateFilesE env st0 (diff st0 os).1 with ⟨st1, oe⟩
        rcases oe with _ | e4
        · rcases hrm : removeFilesE env st1 (diff st0 os).2 with ⟨st2, or2⟩
          rcases or2 with _ | e5
          · refine Or.inl ?_
            simp only [syncRun, hres, hwalk, hlist, hu, hrm]
          · refine Or.inr ⟨?_, e5, ?_, Or.inr (Or.inr (Or.inr (Or.inr ?_)))⟩
            · simp only [syncRun, hres, hwalk, hlist, hu, hrm]
            · simp only [syncRun, hres, hwalk, hlist, hu, hrm]
            · obtain ⟨f, _, hf⟩ := removeFilesE_error env _ _ _ (by rw [hrm])
              exact ⟨f, hf⟩
        · refine Or.inr ⟨?_, e4, ?_, Or.inr (Or.inr (Or.inr (Or.inl ?_)))⟩
          · simp only [syncRun, hres, hwalk, hlist, hu]
          · simp only [syncRun, hres, hwalk, hlist, hu]
          · obtain ⟨o, _, ho⟩ := updateFilesE_error env _ _ _ (by rw [hu])
            exact ⟨o, ho⟩

/-- C10: whenever `syncer.sync` returns a non-nil error it returns
`changed = false`, even though the successful prefix of `updateFiles` or
`removeFiles` may already have mutated the destination: every error return in
the source is literally `return false, err`. -/
theorem sync_error_changed_false [LinearOrder K] (env : syncEnv K E)
    (st0 : List (file K)) (e : E)
    (h : (syncRun env st0).2.1 = some e) : (syncRun env st0).1 = false := by
  rcases syncRun_error_shape env st0 with h0 | ⟨h1, _⟩
  · rw [h0] at h
    cases h
  · exact h1

/-- Witness for C10: the second of two added objects fails to update; the
first object has already been materialised, yet the run reports
`changed = false` with the error. -/
theorem sync_error_changed_false_witness :
    (syncRun (K := Nat) (E := String)
        { resolveRes := .ok ()
          walkRes := .ok ()
          listRes := .ok
            [{ compareKey := 1, link := "", modTime := 0, size := 1 },
             { compareKey := 2, link := "", modTime := 0, size := 1 }]
          updateRes := fun o => if o.compareKey = 2 then some "update failure" else none
          removeRes := fun _ => none } []).2.1 = some "update failure" ∧
    (syncRun (K := Nat) (E := String)
        { resolveRes := .ok ()
          walkRes := .ok ()
          listRes := .ok
            [{ compareKey := 1, link := "", modTime := 0, size := 1 },
             { compareKey := 2, link := "", modTime := 0, size := 1 }]
          updateRes := fun o => if o.compareKey = 2 then some "update failure" else none
          removeRes := fun _ => none } []).2.2 =
      [fileOfObject { compareKey := 1, link := "", modTime := 0, size := 1 }] ∧
    (syncRun (K := Nat) (E := String)
        { resolveRes := .ok ()
          walkRes := .ok ()
          listRes := .ok
            [{ compareKey := 1, link := "", modTime := 0, size := 1 },
             { compareKey := 2, link := "", modTime := 0, size := 1 }]
          updateRes := fun o => if o.compareKey = 2 then some "update failure" else none
          removeRes := fun _ => none } []).1 = false := by
  have h1 : (syncRun (K := Nat) (E := String)
      { resolveRes := .ok ()
        walkRes := .ok ()
        listRes := .ok
          [{ compareKey := 1, link := "", modTime := 0, size := 1 },
           { compareKey := 2, link := "", modTime := 0, size := 1 }]
        updateRes := fun o => if o.compareKey = 2 then some "update failure" else none
        removeRes := fun _ => none } []).2.1 = some "update failure" := by
    simp [syncRun, diff, updCond, updateFilesE, removeFilesE, applyAdd, applyRemove]
  have h2 : (syncRun (K := Nat) (E := String)
      { resolveRes := .ok ()
        walkRes := .ok ()
        listRes := .ok
          [{ compareKey := 1, link := "", modTime := 0, size := 1 },
           { compareKey := 2, link := "", modTime := 0, size := 1 }]
        updateRes := fun o => if o.compareKey = 2 then some "update failure" else none
        removeRes := fun _ => none } []).2.2 =
      [fileOfObject { compareKey := 1, link := "", modTime := 0, size := 1 }] := by
    simp [syncRun, diff, updCond, updateFilesE, removeFilesE, applyAdd, applyRemove]
  exact ⟨h1, h2, sync_error_changed_false _ _ _ h1⟩

/-- C9 counterexample: `syncer.sync` can also return the error of
`resolveLinks` (src/syncer.go lines 52-55), an operation distinct from
listing, walking and applying.  Here every listing/walking/applying outcome is
a success, yet sync returns the link-resolution error. -/
theorem sync_error_resolve_counterexample :
    syncRun (K := Nat) (E := String)
      { resolveRes := .error "resolve failure"
        walkRes := .ok ()
        listRes := .ok []
        updateRes := fun _ => none
        removeRes := fun _ => none } [] = (false, some "resolve failure", []) := rfl

/-- C9 (amended): a non-nil error of `syncer.sync` is exactly one of the four
errors from link-prefix resolution, walking the destination, listing the
bucket, or applying the diff (updating or removing files); no other operation
contributes an error. -/
theorem sync_error_sources [LinearOrder K] (env : syncEnv K E)
    (st0 : List (file K)) (e : E)
    (h : (syncRun env st0).2.1 = some e) :
    env.resolveRes = .error e ∨ env.walkRes = .error e ∨
      env.listRes = .error e ∨
      (∃ o, env.updateRes o = some e) ∨ (∃ f, env.removeRes f = some e) := by
  rcases syncRun_error_shape env st0 with h0 | ⟨_, e2, he2, hsrc⟩
  · rw [h0] at h
    cases h
  · rw [he2] at h
    obtain rfl : e2 = e := Option.some.inj h
    exact hsrc

/-- Witness for the amended C9: a failing listing is reported as the listing
error. -/
theorem sync_error_sources_witness :
    (syncRun (K := Nat) (E := String)
        { resolveRes := .ok ()
          walkRes := .ok ()
          listRes := .error "list failure"
          updateRes := fun _ => none
          removeRes := fun _ => none } []).2.1 = some "list failure" ∧
    (({ resolveRes := .ok ()
        walkRes := .ok ()
        listRes := .error "list failure"
        updateRes := fun _ => none
        removeRes := fun _ => none } : syncEnv Nat String).resolveRes =
          .error "list failure" ∨
      ({ resolveRes := .ok ()
         walkRes := .ok ()
         listRes := .error "list failure"
         updateRes := fun _ => none
         removeRes := fun _ => none } : syncEnv Nat String).walkRes =
           .error "list failure" ∨
      ({ resolveRes := .ok ()
         walkRes := .ok ()
         listRes := .error "list failure"
         updateRes := fun _ => none
         removeRes := fun _ => none } : syncEnv Nat String).listRes =
           .error "list failure" ∨
      (∃ o, ({ resolveRes := .ok ()
               walkRes := .ok ()
               listRes := .error "list failure"
               updateRes := fun _ => none
               removeRes := fun _ => none } : syncEnv Nat String).updateRes o =
          some "list failure") ∨
      ∃ f, ({ resolveRes := .ok ()
              walkRes := .ok ()
              listRes := .error "list failure"
              updateRes := fun _ => none
              removeRes := fun _ => none } : syncEnv Nat String).removeRes f =
          some "list failure") :=
  ⟨rfl, sync_error_sources _ [] _ rfl⟩

/-! ### syncer.updateFile in detail (claim C4)

`syncer.updateFile` (src/syncer.go lines 180-219) is modelled over a
filesystem mapping paths (component lists) to entries.  The steps, in source
order: `os.MkdirAll(filepath.Dir(dst))`, creation of the dot-prefixed sibling
temp (`os.Symlink` for a link object, `os.OpenFile(..., O_CREATE|O_EXCL)` plus
the download for a regular object), `unix.Lutimes` on the temp, and finally
`os.Rename(fileName, dst)`.  Each primitive's external outcome is injected;
`Symlink`/`OpenFile` additionally fail when the temp path already exists
(`O_EXCL`).  A failed download leaves partially written bytes in the temp.
`MkdirAll` touches only the ancestor directories of `dst`, never `dst` or the
temp; a failed `MkdirAll` may have created some of them, which is irrelevant
to the destination entry, so it is modelled as leaving the filesystem
unchanged. -/

/-- A filesystem entry: regular file with content bytes, symbolic link with a
target, or directory.  Both carry the lstat modification time. -/
inductive fsEntry
  | regular (content : List Nat) (modTime : Int)
  | symlink (target : String) (modTime : Int)
  | directory
deriving Repr, DecidableEq

/-- A filesystem: association of paths (component lists) to entries. -/
def FS : Type := List (List String × fsEntry)

def fsLookup : FS → List String → Option fsEntry
  | [], _ => none
  | (q, e) :: rest, p => if q = p then some e else fsLookup rest p

def fsErase : FS → List String → FS
  | [], _ => []
  | (q, e) :: rest, p =>
    if q = p then fsErase rest p else (q, e) :: fsErase rest p

def fsSet (fs : FS) (p : List String) (e : fsEntry) : FS :=
  (p, e) :: fsErase fs p

theorem fsLookup_fsErase (fs : FS) (p q : List String) :
    fsLookup (fsErase fs p) q = if p = q then none else fsLookup fs q := by
  induction fs with
  | nil => by_cases h : p = q <;> simp [fsErase, fsLookup, h]
  | cons pe rest ih =>
    rcases pe with ⟨r, e⟩
    by_cases h1 : r = p
    · rw [fsErase, if_pos h1, ih]
      by_cases h2 : p = q
      · rw [if_pos h2, if_pos h2]
      · rw [if_neg h2, if_neg h2, fsLookup, if_neg (fun h => h2 (h1 ▸ h))]
    · rw [fsErase, if_neg h1]
      by_cases h2 : r = q
      · have hpq : ¬ p = q := fun h => h1 (h2.trans h.symm)
        rw [fsLookup, if_pos h2, if_neg hpq, fsLookup, if_pos h2]
      · rw [fsLookup, if_neg h2, ih]
        by_cases h3 : p = q
        · rw [if_pos h3, if_pos h3]
        · rw [if_neg h3, if_neg h3, fsLookup, if_neg h2]

theorem fsLookup_fsSet (fs : FS) (p : List String) (e : fsEntry)
    (q : List String) :
    fsLookup (fsSet fs p e) q = if p = q then some e else fsLookup fs q := by
  by_cases h : p = q
  · simp [fsSet, fsLookup, h]
  · simp [fsSet, fsLookup, h, fsLookup_fsErase]

/-- The nonempty component prefixes of a path, shortest first: the directories
`os.MkdirAll` creates. -/
def prefixes : List String → List (List String)
  | [] => []
  | c :: rest => [c] :: (prefixes rest).map (c :: ·)

theorem length_le_of_mem_prefixes {l : List String} {p : List String}
    (h : p ∈ prefixes l) : p.length ≤ l.length := by
  induction l generalizing p with
  | nil => simp [prefixes] at h
  | cons c rest ih =>
    simp only [prefixes, List.mem_cons, List.mem_map] at h
    rcases h with h | ⟨q, hq, rfl⟩
    · simp [h]
    · simpa using Nat.succ_le_succ (ih hq)

/-- `os.MkdirAll` on the parent directory: ensure a directory entry at every
ancestor. -/
def mkdirAllM (fs : FS) (dir : List String) : FS :=
  (prefixes dir).foldl (fun acc p => fsSet acc p .directory) fs

theorem fsLookup_mkdirAllM (fs : FS) (dir : List String) (q : List String)
    (hq : dir.length < q.length) :
    fsLookup (mkdirAllM fs dir) q = fsLookup fs q := by
  rw [mkdirAllM]
  have : ∀ ps : List (List String), (∀ p ∈ ps, p.length ≤ dir.length) →
      ∀ acc : FS, fsLookup (ps.foldl (fun acc p => fsSet acc p .directory) acc) q =
        fsLookup acc q := by
    intro ps
    induction ps with
    | nil => intro _ acc; rfl
    | cons p rest ih =>
      intro hlen acc
      rw [List.foldl_cons, ih (fun r hr => hlen r (List.mem_cons_of_mem p hr)),
        fsLookup_fsSet]
      have : p ≠ q := by
        intro h
        have := hlen p (List.mem_cons_self p rest)
        rw [h] at this
        omega
      rw [if_neg this]
  exact this _ (fun p hp => length_le_of_mem_prefixes hp) fs

/-- `unix.Lutimes`: stamp the entry's own modification time (for symlinks the
link's, never the target's). -/
def setMtime : fsEntry → Int → fsEntry
  | .regular c _, t => .regular c t
  | .symlink s _, t => .symlink s t
  | .directory, _ => .directory

/-- Injected outcomes of the effectful primitives inside one `updateFile`
call, plus the wall-clock time stamped on freshly created entries and the
bytes present in the temp when the download aborts midway. -/
structure updEnv where
  mkdirOk : Bool
  createOk : Bool
  downloadOk : Bool
  lutimesOk : Bool
  renameOk : Bool
  now : Int
  midBytes : List Nat

/-- Shared tail of `syncer.updateFile`: `unix.Lutimes(fileName, t, t)` with
the object's modification time, then `os.Rename(fileName, dst)`. -/
def finishUpdate (env : updEnv) (tmp dst : List String) (modTime : Int)
    (fs : FS) : FS × Option String :=
  if !env.lutimesOk then (fs, some "lutimes error")
  else
    match fsLookup fs tmp with
    | none => (fs, some "lutimes error")
    | some e =>
      let fs2 := fsSet fs tmp (setMtime e modTime)
      if !env.renameOk then (fs2, some "rename error")
      else (fsSet (fsErase fs2 tmp) dst (setMtime e modTime), none)

/-- `syncer.updateFile` (src/syncer.go lines 180-219).  `dstDir` is
`filepath.Dir(dst)` as components, `base` is `filepath.Base(dst)`, `suffix`
the decimal rendering of the random int31, `link`/`modTime` the object's
fields, `content` the downloaded body. -/
def updateFileM (env : updEnv) (dstDir : List String) (base suffix : String)
    (link : String) (modTime : Int) (content : List Nat) (fs0 : FS) :
    FS × Option String :=
  let dst := dstDir ++ [base]
  let tmp := dstDir ++ ["." ++ base ++ suffix]
  if !env.mkdirOk then (fs0, some "mkdir error")
  else
    let fs1 := mkdirAllM fs0 dstDir
    if link != "" then
      if (fsLookup fs1 tmp).isSome || !env.createOk then (fs1, some "symlink error")
      else finishUpdate env tmp dst modTime (fsSet fs1 tmp (.symlink link env.now))
    else
      if (fsLookup fs1 tmp).isSome || !env.createOk then (fs1, some "open error")
      else
        let fs2 := fsSet fs1 tmp (.regular [] env.now)
        if !env.downloadOk then
          (fsSet fs2 tmp (.regular env.midBytes env.now), some "download error")
        else finishUpdate env tmp dst modTime (fsSet fs2 tmp (.regular content env.now))

/-- The temp name is a strictly longer sibling of the base name, so the temp
path always differs from the destination path. -/
theorem tmp_ne_dst (dstDir : List String) (base suffix : String) :
    dstDir ++ ["." ++ base ++ suffix] ≠ dstDir ++ [base] := by
  intro h
  have h2 : ("." ++ base ++ suffix) = base := by
    have := List.append_cancel_left h
    simpa using this
  have h3 : ("." ++ base ++ suffix).length = base.length := by rw [h2]
  rw [String.length_append, String.length_append] at h3
  have hdot : ("." : String).length = 1 := rfl
  omega

theorem finishUpdate_shape (env : updEnv) (tmp dst : List String)
    (hne : tmp ≠ dst) (modTime : Int) (fs : FS) (e0 : fsEntry)
    (htmp : fsLookup fs tmp = some e0) :
    ((finishUpdate env tmp dst modTime fs).2.isSome = true ∧
      fsLookup (finishUpdate env tmp dst modTime fs).1 dst = fsLookup fs dst) ∨
    ((finishUpdate env tmp dst modTime fs).2 = none ∧
      fsLookup (finishUpdate env tmp dst modTime fs).1 dst =
        some (setMtime e0 modTime) ∧
      fsLookup (finishUpdate env tmp dst modTime fs).1 tmp = none) := by
  rcases hlu : env.lutimesOk with _ | _
  · left
    constructor <;> simp [finishUpdate, hlu]
  · rcases hrn : env.renameOk with _ | _
    · left
      constructor <;>
        simp [finishUpdate, hlu, hrn, htmp, fsLookup_fsSet, hne]
    · right
      refine ⟨?_, ?_, ?_⟩ <;>
        simp [finishUpdate, hlu, hrn, htmp, fsLookup_fsSet, fsLookup_fsErase,
          hne, Ne.symm hne]

theorem updateFileM_shape (env : updEnv) (dstDir : List String)
    (base suffix link : String) (modTime : Int) (content : List Nat)
    (fs0 : FS) :
    ((updateFileM env dstDir base suffix link modTime content fs0).2.isSome = true ∧
      fsLookup (updateFileM env dstDir base suffix link modTime content fs0).1
        (dstDir ++ [base]) = fsLookup fs0 (dstDir ++ [base])) ∨
    ((updateFileM env dstDir base suffix link modTime content fs0).2 = none ∧
      fsLookup (updateFileM env dstDir base suffix link modTime content fs0).1
        (dstDir ++ [base]) =
        some (if link = "" then fsEntry.regular content modTime
          else fsEntry.symlink link modTime) ∧
      fsLookup (updateFileM env dstDir base suffix link modTime content fs0).1
        (dstDir ++ ["." ++ base ++ suffix]) = none) := by
  have hne : dstDir ++ ["." ++ base ++ suffix] ≠ dstDir ++ [base] :=
    tmp_ne_dst dstDir base suffix
  have hdirlen : fsLookup (mkdirAllM fs0 dstDir) (dstDir ++ [base]) =
      fsLookup fs0 (dstDir ++ [base]) := by
    apply fsLookup_mkdirAllM
    rw [List.length_append]
    simp
  rcases hmk : env.mkdirOk with _ | _
  · left
    constructor <;> simp [updateFileM, hmk]
  · by_cases hex : ((fsLookup (mkdirAllM fs0 dstDir)
        (dstDir ++ ["." ++ base ++ suffix])).isSome || !env.createOk) = true
    · left
      by_cases hl : link = ""
      · constructor <;> simp [updateFileM, hmk, hl, hex, hdirlen]
      · constructor <;> simp [updateFileM, hmk, hl, hex, hdirlen]
    · by_cases hl : link = ""
      · rcases hdl : env.downloadOk with _ | _
        · left
          constructor <;>
            simp [updateFileM, hmk, hl, hex, hdl, fsLookup_fsSet, hne, hdirlen]
        · have heq : updateFileM env dstDir base suffix link modTime content fs0 =
              finishUpdate env (dstDir ++ ["." ++ base ++ suffix])
                (dstDir ++ [base]) modTime
                (fsSet (fsSet (mkdirAllM fs0 dstDir)
                    (dstDir ++ ["." ++ base ++ suffix]) (.regular [] env.now))
                  (dstDir ++ ["." ++ base ++ suffix])
                  (.regular content env.now)) := by
            simp [updateFileM, hmk, hl, hex, hdl]
          rw [heq]
          have htmp : fsLookup
              (fsSet (fsSet (mkdirAllM fs0 dstDir)
                  (dstDir ++ ["." ++ base ++ suffix]) (.regular [] env.now))
                (dstDir ++ ["." ++ base ++ suffix]) (.regular content env.now))
              (dstDir ++ ["." ++ base ++ suffix]) =
              some (.regular content env.now) := by
            rw [fsLookup_fsSet, if_pos rfl]
          rcases finishUpdate_shape env _ _ hne modTime _ _ htmp with
            ⟨h1, h2⟩ | ⟨h1, h2, h3⟩
          · left
            refine ⟨h1, ?_⟩
            rw [h2, fsLookup_fsSet, if_neg hne, fsLookup_fsSet, if_neg hne,
              hdirlen]
          · right
            refine ⟨h1, ?_, h3⟩
            rw [h2, if_pos hl]
            rfl
      · have heq : updateFileM env dstDir base suffix link modTime content fs0 =
            finishUpdate env (dstDir ++ ["." ++ base ++ suffix])
              (dstDir ++ [base]) modTime
              (fsSet (mkdirAllM fs0 dstDir)
                (dstDir ++ ["." ++ base ++ suffix])
                (.symlink link env.now)) := by
          simp [updateFileM, hmk, hl, hex]
        rw [heq]
        have htmp : fsLookup
            (fsSet (mkdirAllM fs0 dstDir)
              (dstDir ++ ["." ++ base ++ suffix]) (.symlink link env.now))
            (dstDir ++ ["." ++ base ++ suffix]) =
            some (.symlink link env.now) := by
          rw [fsLookup_fsSet, if_pos rfl]
        rcases finishUpdate_shape env _ _ hne modTime _ _ htmp with
          ⟨h1, h2⟩ | ⟨h1, h2, h3⟩
        · left
          refine ⟨h1, ?_⟩
          rw [h2, fsLookup_fsSet, if_neg hne, hdirlen]
        · right
          refine ⟨h1, ?_, h3⟩
          rw [h2, if_neg hl]
          rfl

/-- C4: for every added object, if `syncer.updateFile` returns an error the
destination path `dst/compareKey` is unchanged: whatever file, link or absence
was there before is preserved (a stale dot-prefixed temp may remain).  Only
the final `os.Rename` step replaces the destination, atomically installing
the fully written dot-prefixed sibling temp whose content is complete and
whose modification time has already been stamped by `unix.Lutimes`; on
success the destination holds exactly the object's data with the object's
modification time and the temp path is gone. -/
theorem updateFile_atomic (env : updEnv) (dstDir : List String)
    (base suffix link : String) (modTime : Int) (content : List Nat)
    (fs0 : FS) :
    ((updateFileM env dstDir base suffix link modTime content fs0).2.isSome = true →
      fsLookup (updateFileM env dstDir base suffix link modTime content fs0).1
        (dstDir ++ [base]) = fsLookup fs0 (dstDir ++ [base])) ∧
    ((updateFileM env dstDir base suffix link modTime content fs0).2 = none →
      fsLookup (updateFileM env dstDir base suffix link modTime content fs0).1
        (dstDir ++ [base]) =
        some (if link = "" then fsEntry.regular content modTime
          else fsEntry.symlink link modTime) ∧
      fsLookup (updateFileM env dstDir base suffix link modTime content fs0).1
        (dstDir ++ ["." ++ base ++ suffix]) = none) := by
  rcases updateFileM_shape env dstDir base suffix link modTime content fs0 with
    ⟨h1, h2⟩ | ⟨h1, h2, h3⟩
  · constructor
    · intro _
      exact h2
    · intro h0
      rw [h0] at h1
      cases h1
  · constructor
    · intro h0
      rw [h1] at h0
      cases h0
    · intro _
      exact ⟨h2, h3⟩

/-- Witness for C4 at concrete inputs: a failing download preserves the
previous destination entry (and leaves a partial dotfile temp), and a fully
successful run installs the object's content with its modification time and
removes the temp. -/
theorem updateFile_atomic_witness :
    ((updateFileM
        { mkdirOk := true, createOk := true, downloadOk := false,
          lutimesOk := true, renameOk := true, now := 9, midBytes := [7] }
        ["d"] "f" "42" "" 5 [1, 2] [(["d", "f"], .regular [3] 4)]).2.isSome = true ∧
      fsLookup (updateFileM
        { mkdirOk := true, createOk := true, downloadOk := false,
          lutimesOk := true, renameOk := true, now := 9, midBytes := [7] }
        ["d"] "f" "42" "" 5 [1, 2] [(["d", "f"], .regular [3] 4)]).1
        (["d"] ++ ["f"]) = some (.regular [3] 4)) ∧
    ((updateFileM
        { mkdirOk := true, createOk := true, downloadOk := true,
          lutimesOk := true, renameOk := true, now := 9, midBytes := [7] }
        ["d"] "f" "42" "" 5 [1, 2] [(["d", "f"], .regular [3] 4)]).2 = none ∧
      fsLookup (updateFileM
        { mkdirOk := true, createOk := true, downloadOk := true,
          lutimesOk := true, renameOk := true, now := 9, midBytes := [7] }
        ["d"] "f" "42" "" 5 [1, 2] [(["d", "f"], .regular [3] 4)]).1
        (["d"] ++ ["f"]) = some (.regular [1, 2] 5) ∧
      fsLookup (updateFileM
        { mkdirOk := true, createOk := true, downloadOk := true,
          lutimesOk := true, renameOk := true, now := 9, midBytes := [7] }
        ["d"] "f" "42" "" 5 [1, 2] [(["d", "f"], .regular [3] 4)]).1
        (["d"] ++ ["." ++ "f" ++ "42"]) = none) := by
  have hfail := (updateFile_atomic
    { mkdirOk := true, createOk := true, downloadOk := false,
      lutimesOk := true, renameOk := true, now := 9, midBytes := [7] }
    ["d"] "f" "42" "" 5 [1, 2] [(["d", "f"], .regular [3] 4)]).1 (by decide)
  have hok := (updateFile_atomic
    { mkdirOk := true, createOk := true, downloadOk := true,
      lutimesOk := true, renameOk := true, now := 9, midBytes := [7] }
    ["d"] "f" "42" "" 5 [1, 2] [(["d", "f"], .regular [3] 4)]).2 (by decide)
  refine ⟨⟨by decide, ?_⟩, ?_, ?_, ?_⟩
  · rw [hfail]
    decide
  · decide
  · rw [hok.1]
    decide
  · exact hok.2

/-! ### ecrAuthenticator (claim C7)

`ecrAuthenticator.authorization` (src/builder.go lines 308-327) caches a
Basic credential.  Times are integers (nanoseconds); the two `time.Now()`
reads within one call are modelled as the same instant `now`.  The outcome of
`getAuthorizationToken` (lines 329-350: the ECR API call, the
single-authorization-data check and the base64 decoding) is injected as
`fetch`, yielding the decoded token string and its expiry.  Go duration
division truncates toward zero, hence `Int.tdiv`.  The Basic header returned
by `authn.Basic.Authorization()` is determined by the username/password pair,
which stands for it here. -/

/-- Cached state of an `ecrAuthenticator`: the Basic credential (username,
password) if any, and the renewal deadline `validBefore`. -/
structure ecrState where
  basic : Option (String × String)
  validBefore : Int
deriving Repr, DecidableEq

/-- `strings.SplitN(token, colon, 2)` on character lists: everything before
the first colon, and everything after it; `none` when there is no colon (the
`len(parts) != 2` error case). -/
def splitAtColon : List Char → Option (List Char × List Char)
  | [] => none
  | c :: rest =>
    if c = ':' then some ([], rest)
    else
      match splitAtColon rest with
      | none => none
      | some (a, b) => some (c :: a, b)

/-- `strings.SplitN(token, colon, 2)` producing the username/password pair. -/
def splitFirstColon (s : String) : Option (String × String) :=
  match splitAtColon s.data with
  | none => none
  | some (a, b) => some (⟨a⟩, ⟨b⟩)

/-- The fetch path of `authorization`: call `getAuthorizationToken`, split the
token at the first colon, cache the pair and set
`validBefore = expiresAt.Add(-1 * expiresAt.Sub(now) / 2)`. -/
def authFetch (now : Int) (st : ecrState)
    (fetch : Except String (String × Int)) :
    Except String (String × String) × ecrState × Bool :=
  match fetch with
  | .error e => (.error e, st, true)
  | .ok (token, expiresAt) =>
    match splitFirstColon token with
    | none => (.error "invalid authorization token", st, true)
    | some (u, p) =>
      (.ok (u, p),
        { basic := some (u, p),
          validBefore := expiresAt + Int.tdiv (-1 * (expiresAt - now)) 2 },
        true)

/-- `ecrAuthenticator.authorization` (src/builder.go lines 308-327): return
the cached Basic credential while `now < validBefore`, otherwise fetch a new
token.  The Boolean records whether the token API was called. -/
def authorization (now : Int) (st : ecrState)
    (fetch : Except String (String × Int)) :
    Except String (String × String) × ecrState × Bool :=
  match st.basic with
  | some b =>
    if now < st.validBefore then (.ok b, st, false)
    else authFetch now st fetch
  | none => authFetch now st fetch

theorem splitAtColon_eq_some_iff (l : List Char) (a b : List Char) :
    splitAtColon l = some (a, b) ↔
      l = a ++ ':' :: b ∧ ∀ c ∈ a, c ≠ ':' := by
  induction l generalizing a b with
  | nil =>
    simp only [splitAtColon]
    constructor
    · intro h; cases h
    · rintro ⟨h, -⟩
      simp at h
  | cons c rest ih =>
    by_cases hc : c = ':'
    · subst hc
      rw [splitAtColon, if_pos rfl]
      constructor
      · intro h
        obtain ⟨rfl, rfl⟩ : a = [] ∧ b = rest := by
          cases h; exact ⟨rfl, rfl⟩
        exact ⟨rfl, by intro d hd; cases hd⟩
      · rintro ⟨h1, h2⟩
        rcases a with _ | ⟨a0, arest⟩
        · simp only [List.nil_append] at h1
          obtain ⟨-, rfl⟩ := List.cons.inj h1
          rfl
        · have ha0 : a0 = ':' := ((List.cons.inj h1).1).symm
          exact absurd ha0 (h2 a0 (List.mem_cons_self a0 arest))
    · rw [splitAtColon, if_neg hc]
      rcases hre : splitAtColon rest with _ | ⟨a2, b2⟩
      · constructor
        · intro h; cases h
        · rintro ⟨h1, h2⟩
          rcases a with _ | ⟨a0, arest⟩
          · exact absurd ((List.cons.inj h1).1) hc
          · obtain ⟨rfl, h4⟩ := List.cons.inj h1
            have hs : splitAtColon rest = some (arest, b) := by
              rw [ih]
              exact ⟨h4, fun d hd => h2 d (List.mem_cons_of_mem _ hd)⟩
            rw [hs] at hre
            cases hre
      · constructor
        · intro h
          obtain ⟨rfl, rfl⟩ : a = c :: a2 ∧ b = b2 := by
            cases h; exact ⟨rfl, rfl⟩
          obtain ⟨h1, h2⟩ := (ih a2 b).1 hre
          refine ⟨by rw [h1]; rfl, ?_⟩
          intro d hd
          rcases List.mem_cons.1 hd with h3 | h3
          · rw [h3]; exact hc
          · exact h2 d h3
        · rintro ⟨h1, h2⟩
          rcases a with _ | ⟨a0, arest⟩
          · exact absurd ((List.cons.inj h1).1) hc
          · obtain ⟨rfl, h4⟩ := List.cons.inj h1
            have hs : splitAtColon rest = some (arest, b) := by
              rw [ih]
              exact ⟨h4, fun d hd => h2 d (List.mem_cons_of_mem _ hd)⟩
            rw [hs] at hre
            obtain ⟨rfl, rfl⟩ : a2 = arest ∧ b2 = b := by
              cases hre; exact ⟨rfl, rfl⟩
            rfl

/-- C7: sequential calls to `ecrAuthenticator.authorization`: while a
credential is cached and `now` is before `validBefore`, the cached Basic pair
is returned without calling the token API and the state is unchanged;
otherwise a fresh token is fetched, split at the first colon into username
and password (the username is the colon-free prefix, the password the rest),
and the new deadline is `expiresAt` minus half the duration from `now` to
`expiresAt` — the midpoint of the remaining lifetime, with Go's
truncated (toward-zero) duration division. -/
theorem ecr_authorization_cache (now : Int) (st : ecrState)
    (fetch : Except String (String × Int)) :
    (∀ b, st.basic = some b → now < st.validBefore →
      authorization now st fetch = (.ok b, st, false)) ∧
    (∀ token expiresAt u p,
      (st.basic = none ∨ ¬ now < st.validBefore) →
      fetch = .ok (token, expiresAt) →
      splitFirstColon token = some (u, p) →
      authorization now st fetch =
        (.ok (u, p),
          { basic := some (u, p),
            validBefore := expiresAt - Int.tdiv (expiresAt - now) 2 },
          true)) ∧
    (∀ (token u p : String), splitFirstColon token = some (u, p) ↔
      token.data = u.data ++ ':' :: p.data ∧ ∀ c ∈ u.data, c ≠ ':') := by
  refine ⟨?_, ?_, ?_⟩
  · intro b hb hlt
    rw [authorization, hb]
    simp [hlt]
  · intro token expiresAt u p hcold hfetch hsplit
    have hmid : expiresAt + Int.tdiv (-1 * (expiresAt - now)) 2 =
        expiresAt - Int.tdiv (expiresAt - now) 2 := by
      rw [neg_one_mul, Int.neg_tdiv]
      ring
    have hgo : authFetch now st fetch =
        (.ok (u, p),
          { basic := some (u, p),
            validBefore := expiresAt - Int.tdiv (expiresAt - now) 2 },
          true) := by
      subst hfetch
      simp only [authFetch, hsplit, hmid]
    rcases hcold with hnone | hnlt
    · simp only [authorization, hnone, hgo]
    · rcases hb : st.basic with _ | b
      · simp only [authorization, hb, hgo]
      · simp only [authorization, hb, if_neg hnlt, hgo]
  · intro token u p
    rw [splitFirstColon]
    rcases hsp : splitAtColon token.data with _ | ⟨a, b⟩
    · constructor
      · intro h; cases h
      · rintro ⟨h1, h2⟩
        have : splitAtColon token.data = some (u.data, p.data) :=
          (splitAtColon_eq_some_iff _ _ _).2 ⟨h1, h2⟩
        rw [this] at hsp
        cases hsp
    · constructor
      · intro h
        obtain ⟨rfl, rfl⟩ : u = ⟨a⟩ ∧ p = ⟨b⟩ := by
          cases h
          exact ⟨rfl, rfl⟩
        exact (splitAtColon_eq_some_iff _ _ _).1 hsp
      · rintro ⟨h1, h2⟩
        have : splitAtColon token.data = some (u.data, p.data) :=
          (splitAtColon_eq_some_iff _ _ _).2 ⟨h1, h2⟩
        rw [this] at hsp
        obtain ⟨rfl, rfl⟩ : a = u.data ∧ b = p.data := by
          cases hsp
          exact ⟨rfl, rfl⟩
        rfl

/-- Witness for C7 at concrete inputs: a cold cache fetches and sets the
midpoint deadline (expiry 100, now 0, deadline 50); a warm cache before the
deadline returns the cached pair without fetching. -/
theorem ecr_authorization_cache_witness :
    authorization 0 { basic := none, validBefore := 0 }
        (.ok ("AWS:secret", 100)) =
      (.ok ("AWS", "secret"),
        { basic := some ("AWS", "secret"), validBefore := 50 }, true) ∧
    authorization 7
        { basic := some ("AWS", "secret"), validBefore := 50 }
        (.error "unused") =
      (.ok ("AWS", "secret"),
        { basic := some ("AWS", "secret"), validBefore := 50 }, false) := by
  constructor
  · have h := ((ecr_authorization_cache 0 { basic := none, validBefore := 0 }
      (.ok ("AWS:secret", 100))).2.1) "AWS:secret" 100 "AWS" "secret"
      (Or.inl rfl) rfl (by decide)
    rw [h]
    rfl
  · exact (ecr_authorization_cache 7
      { basic := some ("AWS", "secret"), validBefore := 50 }
      (.error "unused")).1 ("AWS", "secret") rfl (by decide)

/-! ### resolveLinks (claim C6)

`syncer.resolveLinks` (src/syncer.go lines 89-116) and `readLinkObject`
(lines 118-131).  The compiled regexp is abstracted as its match function,
the S3 `GetObject`/`ReadAll` pipeline as a fetch function from keys to
bodies.  The Go `path` package operations (`path.Clean`, `path.Dir`,
`path.Join`) are implemented for slash-separated paths. -/

/-- One step of `path.Clean`: push a component onto the output stack,
resolving `.`, `..` and empty components. -/
def cleanPush (rooted : Bool) (stack : List String) (c : String) :
    List String :=
  if c = "" || c = "." then stack
  else if c = ".." then
    match stack with
    | [] => if rooted then [] else [".."]
    | top :: rest => if top = ".." then ".." :: top :: rest else rest
  else c :: stack

/-- `strings.Split(s, slash)` (Go semantics: an empty string yields one empty
field, separators at the ends yield empty fields). -/
def splitSlashAux : List Char → List Char → List String
  | [], cur => [⟨cur.reverse⟩]
  | c :: rest, cur =>
    if c = '/' then ⟨cur.reverse⟩ :: splitSlashAux rest []
    else splitSlashAux rest (c :: cur)

def splitOnSlash (s : String) : List String := splitSlashAux s.data []

/-- `strings.Join(l, slash)`. -/
def joinSlash (l : List String) : String :=
  ⟨List.intercalate ['/'] (l.map String.data)⟩

/-- `path.Clean` on slash-separated paths. -/
def pathClean (p : String) : String :=
  if p = "" then "."
  else
    let rooted := p.data.head? = some '/'
    let stack := (splitOnSlash p).foldl (cleanPush rooted) []
    let out := joinSlash stack.reverse
    if rooted then "/" ++ out
    else if out = "" then "." else out

/-- `path.Dir`: everything up to and including the last slash (empty when
there is no slash), cleaned. -/
def pathDirGo (p : String) : String :=
  pathClean ⟨(p.data.reverse.dropWhile (fun c => c != '/')).reverse⟩

/-- `path.Join` on two elements: non-empty elements joined by a slash, then
cleaned; empty when both are empty. -/
def pathJoin (a b : String) : String :=
  if a ≠ "" then pathClean (a ++ "/" ++ b)
  else if b ≠ "" then pathClean b
  else ""

/-- `strings.TrimSuffix(key, slash)`: drop one trailing slash. -/
def trimSuffixSlash (s : String) : String :=
  match s.data.reverse with
  | '/' :: rest => ⟨rest.reverse⟩
  | _ => s

/-- `strings.TrimRight(body, CR LF)` as in `readLinkObject`: strip every
trailing carriage return and line feed. -/
def trimRightCRLF (s : String) : String :=
  ⟨(s.data.reverse.dropWhile (fun c => c == '\r' || c == '\n')).reverse⟩

/-- `syncer.resolveLink` (lines 110-116): read the link object body and join
it onto the directory of the key. -/
def resolveLinkGo (fetch : String → Except E String) (key : String) :
    Except E String :=
  match fetch key with
  | .error e => .error e
  | .ok body => .ok (pathJoin (pathDirGo key) (trimRightCRLF body))

/-- The loop body of `syncer.resolveLinks` (lines 94-106), recursing over the
remaining components with the accumulated string `k`. -/
def resolveLoop (linkMatch : String → Bool)
    (fetch : String → Except E String) : String → List String → Except E String
  | k, [] => .ok k
  | k, c :: rest =>
    let k2 := (if 0 < k.length then k ++ "/" else k) ++ c
    if linkMatch k2 then
      match resolveLinkGo fetch k2 with
      | .error e => .error e
      | .ok k3 => resolveLoop linkMatch fetch k3 rest
    else resolveLoop linkMatch fetch k2 rest

/-- `syncer.resolveLinks` (src/syncer.go lines 89-108): with no configured
pattern the key is returned unchanged; otherwise the key (one trailing slash
removed) is split on slashes and the loop runs over its components. -/
def resolveLinksGo (pattern : Option (String → Bool))
    (fetch : String → Except E String) (key : String) : Except E String :=
  match pattern with
  | none => .ok key
  | some linkMatch =>
    resolveLoop linkMatch fetch "" (splitOnSlash (trimSuffixSlash key))

/-- The resolution step as the claim words it: append the next original
component to the accumulator; whenever the accumulated string matches the
pattern, replace it by the join of its dirname with the fetched body after
stripping trailing CR and LF characters; errors abort. -/
def resolveStepSpec (linkMatch : String → Bool)
    (fetch : String → Except E String) (acc : Except E String) (c : String) :
    Except E String :=
  match acc with
  | .error e => .error e
  | .ok k =>
    let k2 := (if 0 < k.length then k ++ "/" else k) ++ c
    if linkMatch k2 then
      match fetch k2 with
      | .error e => .error e
      | .ok body => .ok (pathJoin (pathDirGo k2) (trimRightCRLF body))
    else .ok k2

theorem resolveLoop_eq_foldl (linkMatch : String → Bool)
    (fetch : String → Except E String) (cs : List String) (k : String) :
    resolveLoop linkMatch fetch k cs =
      cs.foldl (resolveStepSpec linkMatch fetch) (.ok k) := by
  induction cs generalizing k with
  | nil => rfl
  | cons c rest ih =>
    rw [resolveLoop, List.foldl_cons]
    by_cases hm : linkMatch ((if 0 < k.length then k ++ "/" else k) ++ c) = true
    · rcases hf : fetch ((if 0 < k.length then k ++ "/" else k) ++ c) with e | body
      · have hstep : resolveStepSpec linkMatch fetch (.ok k) c = .error e := by
          simp only [resolveStepSpec, hm, if_pos, hf]
        have hlink : resolveLinkGo fetch
            ((if 0 < k.length then k ++ "/" else k) ++ c) = .error e := by
          simp only [resolveLinkGo, hf]
        rw [hstep]
        simp only [hm, if_pos, hlink]
        clear hstep hlink ih
        induction rest with
        | nil => rfl
        | cons d ds ih2 => rw [List.foldl_cons]; exact ih2
      · have hstep : resolveStepSpec linkMatch fetch (.ok k) c =
            .ok (pathJoin
              (pathDirGo ((if 0 < k.length then k ++ "/" else k) ++ c))
              (trimRightCRLF body)) := by
          simp only [resolveStepSpec, hm, if_pos, hf]
        have hlink : resolveLinkGo fetch
            ((if 0 < k.length then k ++ "/" else k) ++ c) =
            .ok (pathJoin
              (pathDirGo ((if 0 < k.length then k ++ "/" else k) ++ c))
              (trimRightCRLF body)) := by
          simp only [resolveLinkGo, hf]
        rw [hstep]
        simp only [hm, if_pos, hlink]
        exact ih _
    · have hstep : resolveStepSpec linkMatch fetch (.ok k) c =
          .ok ((if 0 < k.length then k ++ "/" else k) ++ c) := by
        simp only [resolveStepSpec, hm]
        rfl
      rw [hstep]
      simp only [hm]
      exact ih _

/-- C6: `syncer.resolveLinks` walks the slash-separated components of the key
(one trailing slash removed) left to right; whenever the accumulated string
linkMatch the configured pattern it is replaced by `path.Join` of
`path.Dir(accumulated)` with the fetched object body stripped of trailing CR
and LF characters, and resolution continues with the next original component;
with no configured pattern the key is returned unchanged. -/
theorem resolveLinks_characterisation (linkMatch : String → Bool)
    (fetch : String → Except E String) (key : String) :
    resolveLinksGo (some linkMatch) fetch key =
      (splitOnSlash (trimSuffixSlash key)).foldl
        (resolveStepSpec linkMatch fetch) (.ok "") ∧
    resolveLinksGo (E := E) none fetch key = .ok key := by
  constructor
  · rw [resolveLinksGo]
    exact resolveLoop_eq_foldl linkMatch fetch _ ""
  · rfl

/-- Witness for C6 at a concrete input: the component `a/current` matches,
its body `v1` (with a trailing newline stripped) replaces it, and the walk
continues with the remaining component. -/
theorem resolveLinks_characterisation_witness :
    resolveLinksGo (E := String)
        (some (fun k => k == "a/current"))
        (fun k => if k == "a/current" then .ok "v1\n" else .error "missing")
        "a/current/b" = .ok "a/v1/b" ∧
    resolveLinksGo (E := String)
        (some (fun k => k == "a/current"))
        (fun k => if k == "a/current" then .ok "v1\n" else .error "missing")
        "a/current/b" =
      (["a", "current", "b"].foldl
        (resolveStepSpec (fun k => k == "a/current")
          (fun k => if k == "a/current" then .ok "v1\n" else .error "missing"))
        (.ok "")) ∧
    resolveLinksGo (E := String) none
        (fun k => if k == "a/current" then .ok "v1\n" else .error "missing")
        "a/current/b" = .ok "a/current/b" := by
  have h := resolveLinks_characterisation (E := String)
    (fun k => k == "a/current")
    (fun k => if k == "a/current" then .ok "v1\n" else .error "missing")
    "a/current/b"
  refine ⟨?_, ?_, h.2⟩
  · rw [h.1]
    rfl
  · have hsplit : splitOnSlash (trimSuffixSlash "a/current/b") =
        ["a", "current", "b"] := by rfl
    rw [h.1, hsplit]

/-! ### destination.files walk order (claim C5)

`destination.files` (src/syncer.go lines 237-274) enumerates the tree with
`filepath.Walk`, which visits each directory's entries in the per-directory
name order produced by `readDirNames` (`sort.Strings`, byte-wise), descending
depth-first, and records for every non-directory the `compareKey`
`strings.TrimPrefix(path, d.path)`.  The destination tree is modelled with
each directory's children listed in exactly that per-directory sorted order;
`walkFiles` emits the compare keys in visit order.  Byte-wise comparison of
UTF-8 strings coincides with codepoint-wise comparison of their
characters. -/

inductive dirTree
  | leaf
  | node (children : List (String × dirTree))

/-- Relative path of a child, with no leading separator. -/
def childPath (rel name : String) : String :=
  if rel = "" then name else rel ++ "/" ++ name

mutual

/-- `filepath.Walk` restricted to what `destination.files` keeps: regular
entries yield their relative path, directory children are visited in listed
(per-directory sorted) order. -/
def walkFiles : dirTree → String → List String
  | .leaf, rel => [rel]
  | .node children, rel => walkList children rel

def walkList : List (String × dirTree) → String → List String
  | [], _ => []
  | (name, t) :: rest, rel =>
    walkFiles t (childPath rel name) ++ walkList rest rel

end

/-- Byte-wise lexicographic strict order on character lists. -/
def charListLt : List Char → List Char → Bool
  | [], [] => false
  | [], _ :: _ => true
  | _ :: _, [] => false
  | a :: as, b :: bs =>
    if a < b then true else if b < a then false else charListLt as bs

/-- Byte-wise lexicographic strict order on strings (UTF-8 byte order equals
codepoint order). -/
def strLtB (a b : String) : Bool := charListLt a.data b.data

mutual

/-- Every directory of the tree lists its children in strictly increasing
byte-wise name order — the order `readDirNames` hands to the walker. -/
def treeSortedB : dirTree → Bool
  | .leaf => true
  | .node children => listSortedB children

def listSortedB : List (String × dirTree) → Bool
  | [] => true
  | (_, t) :: [] => treeSortedB t
  | (n1, t) :: (n2, t2) :: rest =>
    strLtB n1 n2 && treeSortedB t && listSortedB ((n2, t2) :: rest)

end

/-- C5 refutation at a concrete destination tree: a directory `a` (holding a
file `x`) next to a regular file `a.b`.  Per-directory sorting puts `a`
before `a.b` and the walk descends into `a` first, so the walker emits the
compare keys in the order `a/x`, `a.b` — but byte-wise `a.b` precedes `a/x`
(`.` is 0x2E, `/` is 0x2F), the order of the S3 listing.  Consequently
`syncer.diff` on this in-sync state spuriously re-adds and then removes
`a.b`. -/
theorem walker_order_not_bytewise :
    treeSortedB (.node [("a", .node [("x", .leaf)]), ("a.b", .leaf)]) = true ∧
    walkFiles (.node [("a", .node [("x", .leaf)]), ("a.b", .leaf)]) "" =
      ["a/x", "a.b"] ∧
    strLtB "a.b" "a/x" = true ∧
    diff [({ compareKey := "a/x", link := "", modTime := 0, size := 1 } : file String),
          { compareKey := "a.b", link := "", modTime := 0, size := 1 }]
        [({ compareKey := "a.b", link := "", modTime := 0, size := 1 } : object String),
          { compareKey := "a/x", link := "", modTime := 0, size := 1 }] =
      ([{ compareKey := "a.b", link := "", modTime := 0, size := 1 }],
        [{ compareKey := "a.b", link := "", modTime := 0, size := 1 }]) := by
  refine ⟨rfl, rfl, by decide, ?_⟩
  simp [diff, updCond]
  decide

/-! ### The walk-order bug breaks the mirror property and idempotence
(claims C1 and C3)

The walker's depth-first order differs from the listing's byte-wise order as
soon as a directory has a sibling whose name extends the directory's name by
a byte below `/` (such as the file `a.b` next to the directory `a`).
`syncer.diff` assumes the two streams share one order, so on such a
destination it emits the out-of-place key into both `added` and `removed`
even when local and remote agree; `updateFiles` then reinstalls the file at
`dst/compareKey` (the final `os.Rename` of `updateFile` replaces whatever the
path held) and `removeFiles` unlinks that very path.  The pass is applied
here to the path-keyed filesystem of the `updateFile` model: installation is
`fsSet`, removal is `fsErase`, both at the slash components of the compare
key (the removed file's `path` is `dst` plus its compare key). -/

/-- The entry a successful `updateFile` leaves at the destination path: a
symbolic link to the object's link target, or a regular file holding the
downloaded body (identified here only through its length), stamped with the
object's modification time. -/
def entryOfObject (o : object String) : fsEntry :=
  if o.link = "" then .regular (List.replicate o.size.toNat 0) o.modTime
  else .symlink o.link o.modTime

/-- One successful pass applied to the destination filesystem: `updateFiles`
installs every added object at its compare key in order, then `removeFiles`
unlinks every removed file's path in order (src/syncer.go lines 78-85). -/
def applyDiffFS (st : FS) (added : List (object String))
    (removed : List (file String)) : FS :=
  removed.foldl (fun acc f => fsErase acc (splitOnSlash f.compareKey))
    (added.foldl
      (fun acc o => fsSet acc (splitOnSlash o.compareKey) (entryOfObject o)) st)

/-- C1: the mirror property fails of the program.  With remote objects `a.b`
and `a/x` (listed in byte-wise order) and a destination already holding
exactly those files with matching link fields, sizes and modification times,
the walker emits the compare keys in depth-first order `a/x`, `a.b`;
`syncer.diff` run on that order emits `a.b` into both `added` and `removed`;
the pass reinstalls `dst/a.b` and then unlinks it, and `sync` returns with a
nil error — yet afterwards the listed object `a.b` has no local file at all,
let alone one of equal size and modification time. -/
theorem mirror_property_violated_by_walk_order :
    walkFiles (.node [("a", .node [("x", .leaf)]), ("a.b", .leaf)]) "" =
      ["a/x", "a.b"] ∧
    diff [({ compareKey := "a/x", link := "", modTime := 7, size := 1 } : file String),
          { compareKey := "a.b", link := "", modTime := 7, size := 1 }]
        [({ compareKey := "a.b", link := "", modTime := 7, size := 1 } : object String),
          { compareKey := "a/x", link := "", modTime := 7, size := 1 }] =
      ([{ compareKey := "a.b", link := "", modTime := 7, size := 1 }],
        [{ compareKey := "a.b", link := "", modTime := 7, size := 1 }]) ∧
    fsLookup
        (applyDiffFS
          [(["a", "x"], fsEntry.regular [0] 7), (["a.b"], fsEntry.regular [0] 7)]
          [{ compareKey := "a.b", link := "", modTime := 7, size := 1 }]
          [{ compareKey := "a.b", link := "", modTime := 7, size := 1 }])
        ["a.b"] = none := by
  refine ⟨rfl, ?_, ?_⟩
  · simp [diff, updCond]
    decide
  · rfl

/-- C3: idempotence fails of the program.  Starting with an empty
destination, the first pass adds both listed objects `a.b` and `a/x`
(returning `changed = true`, which the claim allows) and installs them with
the objects' sizes and modification times.  The created tree walks in
depth-first order `a/x`, `a.b`, so on the second call with the listing
unchanged `syncer.diff` emits `a.b` into both `added` and `removed`: the
second call overwrites and then deletes `dst/a.b` and returns
`changed = true`, not the claimed `changed = false` with no file creations,
overwrites or deletions. -/
theorem sync_second_pass_not_idempotent :
    diff ([] : List (file String))
        [({ compareKey := "a.b", link := "", modTime := 7, size := 1 } : object String),
          { compareKey := "a/x", link := "", modTime := 7, size := 1 }] =
      ([{ compareKey := "a.b", link := "", modTime := 7, size := 1 },
        { compareKey := "a/x", link := "", modTime := 7, size := 1 }], []) ∧
    walkFiles (.node [("a", .node [("x", .leaf)]), ("a.b", .leaf)]) "" =
      ["a/x", "a.b"] ∧
    diff [({ compareKey := "a/x", link := "", modTime := 7, size := 1 } : file String),
          { compareKey := "a.b", link := "", modTime := 7, size := 1 }]
        [({ compareKey := "a.b", link := "", modTime := 7, size := 1 } : object String),
          { compareKey := "a/x", link := "", modTime := 7, size := 1 }] ≠
      ([], []) ∧
    syncChanged
        [({ compareKey := "a/x", link := "", modTime := 7, size := 1 } : file String),
          { compareKey := "a.b", link := "", modTime := 7, size := 1 }]
        [({ compareKey := "a.b", link := "", modTime := 7, size := 1 } : object String),
          { compareKey := "a/x", link := "", modTime := 7, size := 1 }] = true := by
  refine ⟨?_, rfl, ?_, ?_⟩
  · simp [diff]
  · simp [diff, updCond]
    decide
  · simp [syncChanged, diff, updCond]
    decide

/-! ### createTarball (claim C8)

`createTarball` and `addToTarball` (src/builder.go lines 166-254), modelled
over a tree of filesystem nodes.  Input paths arrive as component lists (the
Go source first applies `filepath.Clean` and trims the leading separator,
then splits on the separator).  Each directory's children are listed in the
per-directory sorted order `filepath.Walk` visits them in.  A tar archive is
the list of emitted entries; `tar.FileInfoHeader` keeps the lstat
modification time, records the size only for regular files and the link
target only for symlinks, and `addToTarball` appends a trailing separator and
zeroes the modification time for directories and streams the content only for
regular files.  Each entry also records the visit path it was emitted for
(the key of the Go `added` map); the header name is derived from it. -/

inductive tnode
  | tfile (content : List Nat) (modTime : Int)
  | tlink (target : String) (modTime : Int)
  | tdir (modTime : Int) (children : List (String × tnode))
  | tother (modTime : Int)

inductive tarType
  | regular
  | symlink
  | directory
  | other
deriving Repr, DecidableEq

structure tarEntry where
  path : String
  name : String
  typ : tarType
  size : Int
  modTime : Int
  linkTarget : String
  content : List Nat
deriving Repr, DecidableEq

/-- `addToTarball` on one node: `tar.FileInfoHeader` plus the
directory/regular special cases. -/
def headerOf (path : String) (n : tnode) : tarEntry :=
  match n with
  | .tfile c m =>
    { path := path, name := path, typ := .regular, size := c.length,
      modTime := m, linkTarget := "", content := c }
  | .tlink t m =>
    { path := path, name := path, typ := .symlink, size := 0,
      modTime := m, linkTarget := t, content := [] }
  | .tdir _ _ =>
    { path := path, name := path ++ "/", typ := .directory, size := 0,
      modTime := 0, linkTarget := "", content := [] }
  | .tother m =>
    { path := path, name := path, typ := .other, size := 0,
      modTime := m, linkTarget := "", content := [] }

/-- `os.Lstat` relative to the tree root. -/
def lookupT : tnode → List String → Option tnode
  | n, [] => some n
  | .tdir _ children, c :: rest =>
    match children.find? (fun ch => ch.1 == c) with
    | some ch => lookupT ch.2 rest
    | none => none
  | _, _ :: _ => none

/-- Emit the entry for a visit path unless the path was already added
(`added[p]` check, `os.Lstat`, `addToTarball`, `added[p] = true`). -/
def emitAt (root : tnode) (st : List tarEntry × List String)
    (p : List String) : Except String (List tarEntry × List String) :=
  let name := joinSlash p
  if st.2.contains name then .ok st
  else
    match lookupT root p with
    | none => .error "lstat error"
    | some n => .ok (st.1 ++ [headerOf name n], name :: st.2)

/-- The parent-chain loop of `createTarball`: emit every component prefix of
the input path once, shortest first. -/
def emitParents (root : tnode) :
    List (List String) → List tarEntry × List String →
    Except String (List tarEntry × List String)
  | [], st => .ok st
  | q :: qs, st =>
    match emitAt root st q with
    | .error e => .error e
    | .ok st2 => emitParents root qs st2

mutual

/-- `filepath.Walk` inside `createTarball`: visit the node itself (skipped
when already added), then the children of a directory in listed order. -/
def walkEmit : String → tnode → List tarEntry × List String →
    List tarEntry × List String
  | p, n, st =>
    let st2 := if st.2.contains p then st
      else (st.1 ++ [headerOf p n], p :: st.2)
    match n with
    | .tdir _ children => walkEmitList p children st2
    | _ => st2

def walkEmitList : String → List (String × tnode) →
    List tarEntry × List String → List tarEntry × List String
  | _, [], st => st
  | p, (name, ch) :: rest, st =>
    walkEmitList p rest (walkEmit (p ++ "/" ++ name) ch st)

end

/-- One iteration of the outer loop of `createTarball`: the parent chain of
the input path, then the walk of its subtree. -/
def addOnePath (root : tnode) (st : List tarEntry × List String)
    (p : List String) : Except String (List tarEntry × List String) :=
  match emitParents root (prefixes p) st with
  | .error e => .error e
  | .ok st2 =>
    match lookupT root p with
    | none => .error "walk error"
    | some n => .ok (walkEmit (joinSlash p) n st2)

def createTarballGo (root : tnode) :
    List (List String) → List tarEntry × List String →
    Except String (List tarEntry × List String)
  | [], st => .ok st
  | p :: ps, st =>
    match addOnePath root st p with
    | .error e => .error e
    | .ok st2 => createTarballGo root ps st2

/-- `createTarball(paths, w)`: the archive produced for the given input paths
over the given tree, starting from an empty writer and an empty `added`
set. -/
def createTarballM (root : tnode) (paths : List (List String)) :
    Except String (List tarEntry) :=
  match createTarballGo root paths ([], []) with
  | .error e => .error e
  | .ok st => .ok st.1

/-! Content normalisation: two trees agree on structure, names, kinds, sizes,
modification times and link targets exactly when they are equal after every
regular file's bytes are replaced by zeros of the same length. -/

mutual

def stripContentNode : tnode → tnode
  | .tfile c m => .tfile (List.replicate c.length 0) m
  | .tlink t m => .tlink t m
  | .tdir m children => .tdir m (stripContentChildren children)
  | .tother m => .tother m

def stripContentChildren : List (String × tnode) → List (String × tnode)
  | [] => []
  | (name, ch) :: rest => (name, stripContentNode ch) :: stripContentChildren rest

end

/-- The header part of an entry: the content bytes replaced by zeros (the
size, name, type, modification time and link target are untouched). -/
def stripContentEntry (e : tarEntry) : tarEntry :=
  { e with content := List.replicate e.content.length 0 }

def stripState (st : List tarEntry × List String) :
    List tarEntry × List String :=
  (st.1.map stripContentEntry, st.2)

theorem headerOf_strip (p : String) (n : tnode) :
    headerOf p (stripContentNode n) = stripContentEntry (headerOf p n) := by
  cases n <;> simp [headerOf, stripContentNode, stripContentEntry]

theorem find?_stripContentChildren (children : List (String × tnode))
    (c : String) :
    (stripContentChildren children).find? (fun ch => ch.1 == c) =
      (children.find? (fun ch => ch.1 == c)).map
        (fun ch => (ch.1, stripContentNode ch.2)) := by
  induction children with
  | nil => simp [stripContentChildren]
  | cons hd rest ih =>
    rcases hd with ⟨name, ch⟩
    rw [stripContentChildren]
    by_cases hc : (name == c) = true
    · simp [List.find?, hc]
    · simp [List.find?, hc, ih]

theorem lookupT_strip (p : List String) (root : tnode) :
    lookupT (stripContentNode root) p = (lookupT root p).map stripContentNode := by
  induction p generalizing root with
  | nil => cases root <;> rfl
  | cons c rest ih =>
    cases root with
    | tfile content m => rfl
    | tlink t m => rfl
    | tother m => rfl
    | tdir m children =>
      rw [stripContentNode, lookupT, lookupT, find?_stripContentChildren]
      rcases hf : children.find? (fun ch => ch.1 == c) with _ | ch
      · rw [hf]
        rfl
      · rw [hf]
        exact ih ch.2

theorem emitAt_strip (root : tnode) (st : List tarEntry × List String)
    (p : List String) :
    emitAt (stripContentNode root) (stripState st) p =
      (emitAt root st p).map stripState := by
  rw [emitAt, emitAt]
  by_cases hc : st.2.contains (joinSlash p)
  · simp only [stripState, hc, if_pos]
    rfl
  · simp only [stripState, hc, Bool.false_eq_true, if_false, lookupT_strip]
    rcases hl : lookupT root p with _ | n
    · rfl
    · simp [Except.map, headerOf_strip, stripState]

theorem emitParents_strip (root : tnode) (qs : List (List String))
    (st : List tarEntry × List String) :
    emitParents (stripContentNode root) qs (stripState st) =
      (emitParents root qs st).map stripState := by
  induction qs generalizing st with
  | nil => rfl
  | cons q rest ih =>
    rw [emitParents, emitParents, emitAt_strip]
    rcases he : emitAt root st q with e | st2
    · rfl
    · exact ih st2

mutual

theorem walkEmit_strip : ∀ (p : String) (n : tnode)
    (st : List tarEntry × List String),
    walkEmit p (stripContentNode n) (stripState st) =
      stripState (walkEmit p n st)
  | p, .tfile c m, st => by
    by_cases hc : p ∈ st.2 <;>
      simp [walkEmit, stripContentNode, stripState, headerOf, hc,
        stripContentEntry]
  | p, .tlink t m, st => by
    by_cases hc : p ∈ st.2 <;>
      simp [walkEmit, stripContentNode, stripState, headerOf, hc,
        stripContentEntry]
  | p, .tother m, st => by
    by_cases hc : p ∈ st.2 <;>
      simp [walkEmit, stripContentNode, stripState, headerOf, hc,
        stripContentEntry]
  | p, .tdir m children, st => by
    show walkEmitList p (stripContentChildren children)
        (if (stripState st).2.contains p then stripState st
          else ((stripState st).1 ++
            [headerOf p (stripContentNode (.tdir m children))],
            p :: (stripState st).2)) =
      stripState (walkEmitList p children
        (if st.2.contains p then st
          else (st.1 ++ [headerOf p (.tdir m children)], p :: st.2)))
    have hif : (if (stripState st).2.contains p then stripState st
          else ((stripState st).1 ++
            [headerOf p (stripContentNode (.tdir m children))],
            p :: (stripState st).2)) =
        stripState (if st.2.contains p then st
          else (st.1 ++ [headerOf p (.tdir m children)], p :: st.2)) := by
      by_cases hc : p ∈ st.2 <;> simp [stripState, hc, headerOf_strip]
    rw [hif]
    exact walkEmitList_strip p children _

theorem walkEmitList_strip : ∀ (p : String)
    (children : List (String × tnode)) (st : List tarEntry × List String),
    walkEmitList p (stripContentChildren children) (stripState st) =
      stripState (walkEmitList p children st)
  | _, [], st => rfl
  | p, (name, ch) :: rest, st => by
    rw [stripContentChildren, walkEmitList, walkEmitList, walkEmit_strip]
    exact walkEmitList_strip p rest _

end

theorem addOnePath_strip (root : tnode) (st : List tarEntry × List String)
    (p : List String) :
    addOnePath (stripContentNode root) (stripState st) p =
      (addOnePath root st p).map stripState := by
  rw [addOnePath, addOnePath, emitParents_strip]
  rcases he : emitParents root (prefixes p) st with e | st2
  · rfl
  · rw [Except.map, lookupT_strip]
    rcases hl : lookupT root p with _ | n
    · rfl
    · show Except.ok (walkEmit (joinSlash p) (stripContentNode n) (stripState st2)) =
        Except.map stripState (Except.ok (walkEmit (joinSlash p) n st2))
      rw [walkEmit_strip]
      rfl

theorem createTarballGo_strip (root : tnode) (ps : List (List String))
    (st : List tarEntry × List String) :
    createTarballGo (stripContentNode root) ps (stripState st) =
      (createTarballGo root ps st).map stripState := by
  induction ps generalizing st with
  | nil => rfl
  | cons p rest ih =>
    rw [createTarballGo, createTarballGo, addOnePath_strip]
    rcases ha : addOnePath root st p with e | st2
    · rfl
    · exact ih st2

theorem createTarballM_strip (root : tnode) (paths : List (List String)) :
    createTarballM (stripContentNode root) paths =
      (createTarballM root paths).map (List.map stripContentEntry) := by
  rw [createTarballM, createTarballM]
  have h1 : createTarballGo (stripContentNode root) paths ([], []) =
      (createTarballGo root paths ([], [])).map stripState :=
    createTarballGo_strip root paths ([], [])
  rw [h1]
  rcases hg : createTarballGo root paths ([], []) with e | st
  · rfl
  · rfl

theorem headerOf_path (name : String) (n : tnode) :
    (headerOf name n).path = name := by
  cases n <;> rfl

theorem headerOf_dir_prop (name : String) (n : tnode) :
    (headerOf name n).typ = tarType.directory →
      (headerOf name n).name = (headerOf name n).path ++ "/" ∧
        (headerOf name n).modTime = 0 := by
  cases n <;> simp [headerOf]

/-- Invariant carried by the tarball writer state: the emitted entry paths
are exactly the `added` set (in emission order), the `added` set has no
duplicates, and every emitted directory entry carries the trailing separator
and a zeroed modification time. -/
def tarInv (st : List tarEntry × List String) : Prop :=
  st.1.map tarEntry.path = st.2.reverse ∧ st.2.Nodup ∧
    ∀ e ∈ st.1, e.typ = tarType.directory →
      e.name = e.path ++ "/" ∧ e.modTime = 0

theorem tarInv_emit (st : List tarEntry × List String) (name : String)
    (n : tnode) (h : tarInv st) (hn : st.2.contains name = false) :
    tarInv (st.1 ++ [headerOf name n], name :: st.2) := by
  obtain ⟨h1, h2, h3⟩ := h
  have hmem : name ∉ st.2 := by simpa using hn
  refine ⟨?_, ?_, ?_⟩
  · rw [List.map_append, h1, List.map_cons, List.map_nil, List.reverse_cons,
      headerOf_path]
  · exact List.nodup_cons.2 ⟨hmem, h2⟩
  · intro e he htyp
    rcases List.mem_append.1 he with h4 | h4
    · exact h3 e h4 htyp
    · have : e = headerOf name n := by simpa using h4
      rw [this] at htyp ⊢
      exact headerOf_dir_prop name n htyp

theorem tarInv_emitAt (root : tnode) (st : List tarEntry × List String)
    (p : List String) (h : tarInv st) {st2 : List tarEntry × List String}
    (he : emitAt root st p = .ok st2) : tarInv st2 := by
  rw [emitAt] at he
  by_cases hc : st.2.contains (joinSlash p)
  · rw [if_pos hc] at he
    obtain rfl : st = st2 := Except.ok.inj he
    exact h
  · rw [if_neg hc] at he
    rcases hl : lookupT root p with _ | n
    · rw [hl] at he
      cases he
    · rw [hl] at he
      obtain rfl : (st.1 ++ [headerOf (joinSlash p) n], joinSlash p :: st.2) = st2 :=
        Except.ok.inj he
      exact tarInv_emit st (joinSlash p) n h (by simpa using hc)

theorem tarInv_emitParents (root : tnode) :
    ∀ (qs : List (List String)) (st : List tarEntry × List String)
      {st2 : List tarEntry × List String}, tarInv st →
      emitParents root qs st = .ok st2 → tarInv st2 := by
  intro qs
  induction qs with
  | nil =>
    intro st st2 h he
    obtain rfl : st = st2 := Except.ok.inj he
    exact h
  | cons q rest ih =>
    intro st st2 h he
    rw [emitParents] at he
    rcases ha : emitAt root st q with e | stm
    · rw [ha] at he
      cases he
    · rw [ha] at he
      exact ih stm (tarInv_emitAt root st q h ha) he

mutual

theorem tarInv_walkEmit : ∀ (p : String) (n : tnode)
    (st : List tarEntry × List String), tarInv st → tarInv (walkEmit p n st)
  | p, .tfile c m, st, h => by
    show tarInv (if st.2.contains p then st
      else (st.1 ++ [headerOf p (.tfile c m)], p :: st.2))
    by_cases hc : st.2.contains p
    · rw [if_pos hc]
      exact h
    · rw [if_neg hc]
      exact tarInv_emit st p _ h (by simpa using hc)
  | p, .tlink t m, st, h => by
    show tarInv (if st.2.contains p then st
      else (st.1 ++ [headerOf p (.tlink t m)], p :: st.2))
    by_cases hc : st.2.contains p
    · rw [if_pos hc]
      exact h
    · rw [if_neg hc]
      exact tarInv_emit st p _ h (by simpa using hc)
  | p, .tother m, st, h => by
    show tarInv (if st.2.contains p then st
      else (st.1 ++ [headerOf p (.tother m)], p :: st.2))
    by_cases hc : st.2.contains p
    · rw [if_pos hc]
      exact h
    · rw [if_neg hc]
      exact tarInv_emit st p _ h (by simpa using hc)
  | p, .tdir m children, st, h => by
    show tarInv (walkEmitList p children (if st.2.contains p then st
      else (st.1 ++ [headerOf p (.tdir m children)], p :: st.2)))
    by_cases hc : st.2.contains p
    · rw [if_pos hc]
      exact tarInv_walkEmitList p children st h
    · rw [if_neg hc]
      exact tarInv_walkEmitList p children _
        (tarInv_emit st p _ h (by simpa using hc))

theorem tarInv_walkEmitList : ∀ (p : String)
    (children : List (String × tnode)) (st : List tarEntry × List String),
    tarInv st → tarInv (walkEmitList p children st)
  | _, [], _, h => h
  | p, (name, ch) :: rest, st, h =>
    tarInv_walkEmitList p rest _ (tarInv_walkEmit (p ++ "/" ++ name) ch st h)

end

theorem tarInv_addOnePath (root : tnode) (st : List tarEntry × List String)
    (p : List String) (h : tarInv st) {st2 : List tarEntry × List String}
    (he : addOnePath root st p = .ok st2) : tarInv st2 := by
  rw [addOnePath] at he
  rcases hp : emitParents root (prefixes p) st with e | stm
  · rw [hp] at he
    cases he
  · rw [hp] at he
    rcases hl : lookupT root p with _ | n
    · rw [hl] at he
      cases he
    · rw [hl] at he
      obtain rfl : walkEmit (joinSlash p) n stm = st2 := Except.ok.inj he
      exact tarInv_walkEmit (joinSlash p) n stm
        (tarInv_emitParents root (prefixes p) st h hp)

theorem tarInv_createTarballGo (root : tnode) :
    ∀ (ps : List (List String)) (st : List tarEntry × List String)
      {st2 : List tarEntry × List String}, tarInv st →
      createTarballGo root ps st = .ok st2 → tarInv st2 := by
  intro ps
  induction ps with
  | nil =>
    intro st st2 h he
    obtain rfl : st = st2 := Except.ok.inj he
    exact h
  | cons p rest ih =>
    intro st st2 h he
    rw [createTarballGo] at he
    rcases ha : addOnePath root st p with e | stm
    · rw [ha] at he
      cases he
    · rw [ha] at he
      exact ih stm (tarInv_addOnePath root st p h ha) he

theorem createTarballM_inv (root : tnode) (paths : List (List String))
    (es : List tarEntry) (hok : createTarballM root paths = .ok es) :
    (es.map tarEntry.path).Nodup ∧
      ∀ e ∈ es, e.typ = tarType.directory →
        e.name = e.path ++ "/" ∧ e.modTime = 0 := by
  rw [createTarballM] at hok
  rcases hg : createTarballGo root paths ([], []) with e | st
  · rw [hg] at hok
    cases hok
  · rw [hg] at hok
    obtain rfl : st.1 = es := Except.ok.inj hok
    obtain ⟨h1, h2, h3⟩ := tarInv_createTarballGo root paths ([], [])
      ⟨rfl, List.nodup_nil, by intro e he; cases he⟩ hg
    refine ⟨?_, h3⟩
    rw [h1]
    exact List.nodup_reverse.2 h2

/-- C8 counterexample: two trees identical in names, kinds, sizes, link
targets and modification times — they normalise to the same tree — but with
different file bytes, produce different archives.  Unchanged sizes, times and
targets alone do not give byte-identical output; the file contents must also
be unchanged. -/
theorem tarball_byte_identical_counterexample :
    stripContentNode (.tdir 0 [("f", .tfile [1] 5)]) =
      stripContentNode (.tdir 0 [("f", .tfile [2] 5)]) ∧
    createTarballM (.tdir 0 [("f", .tfile [1] 5)]) [["f"]] ≠
      createTarballM (.tdir 0 [("f", .tfile [2] 5)]) [["f"]] := by
  constructor
  · rfl
  · intro h
    have h1 : createTarballM (.tdir 0 [("f", .tfile [1] 5)]) [["f"]] =
        .ok [{ path := "f", name := "f", typ := .regular, size := 1,
               modTime := 5, linkTarget := "", content := [1] }] := rfl
    have h2 : createTarballM (.tdir 0 [("f", .tfile [2] 5)]) [["f"]] =
        .ok [{ path := "f", name := "f", typ := .regular, size := 1,
               modTime := 5, linkTarget := "", content := [2] }] := rfl
    rw [h1, h2] at h
    simp at h

/-- C8 (amended): `createTarball` is a pure function of the input path list
and the tree, so over one and the same tree two invocations are literally
equal; over two trees with unchanged names, kinds, sizes, modification times
and link targets (but possibly changed regular-file bytes) the archives agree
entry for entry on everything except the raw content bytes; every emitted
path appears exactly once; and directory headers carry a trailing separator
and a zeroed modification time. -/
theorem tarball_determinism (root1 root2 : tnode) (paths : List (List String))
    (es : List tarEntry)
    (hagree : stripContentNode root1 = stripContentNode root2)
    (hok : createTarballM root1 paths = .ok es) :
    (createTarballM root2 paths).map (List.map stripContentEntry) =
      .ok (es.map stripContentEntry) ∧
    (es.map tarEntry.path).Nodup ∧
    (∀ e ∈ es, e.typ = tarType.directory →
      e.name = e.path ++ "/" ∧ e.modTime = 0) ∧
    (root1 = root2 → createTarballM root2 paths = .ok es) := by
  obtain ⟨hnd, hdir⟩ := createTarballM_inv root1 paths es hok
  refine ⟨?_, hnd, hdir, ?_⟩
  · have h1 := createTarballM_strip root1 paths
    have h2 := createTarballM_strip root2 paths
    rw [hagree] at h1
    rw [← h2, h1, hok]
    rfl
  · intro h
    rw [← h]
    exact hok

/-- Witness for the amended C8: two one-file trees with equal header data and
different bytes. -/
theorem tarball_determinism_witness :
    stripContentNode (.tdir 0 [("f", .tfile [9] 3)]) =
      stripContentNode (.tdir 0 [("f", .tfile [4] 3)]) ∧
    createTarballM (.tdir 0 [("f", .tfile [9] 3)]) [["f"]] =
      .ok [{ path := "f", name := "f", typ := .regular, size := 1,
             modTime := 3, linkTarget := "", content := [9] }] ∧
    ((createTarballM (.tdir 0 [("f", .tfile [4] 3)]) [["f"]]).map
        (List.map stripContentEntry) =
      .ok ([{ path := "f", name := "f", typ := .regular, size := 1,
              modTime := 3, linkTarget := "", content := [9] }].map stripContentEntry) ∧
    ([{ path := "f", name := "f", typ := tarType.regular, size := 1,
         modTime := 3, linkTarget := "", content := [9] }].map
      tarEntry.path).Nodup ∧
    (∀ e ∈ ([{ path := "f", name := "f", typ := tarType.regular, size := 1,
                modTime := 3, linkTarget := "", content := [9] }] : List tarEntry),
      e.typ = tarType.directory → e.name = e.path ++ "/" ∧ e.modTime = 0) ∧
    ((.tdir 0 [("f", .tfile [9] 3)] : tnode) = .tdir 0 [("f", .tfile [4] 3)] →
      createTarballM (.tdir 0 [("f", .tfile [4] 3)]) [["f"]] =
        .ok [{ path := "f", name := "f", typ := .regular, size := 1,
               modTime := 3, linkTarget := "", content := [9] }])) :=
  ⟨rfl, rfl, tarball_determinism _ _ _ _ rfl rfl⟩

end S3Sync
